import Mathlib

/-!
A verification development for the password-guessing core of `pwd_guess.py`
(LSTM-Cracker).  The Python data structures and algorithms are modelled as
executable Lean definitions:

* `NodeTrie` — the weighted trie (`NodeTrie.increment_optimized`,
  `NodeTrie.random_iterate`);
* `DiskBackedTrie` — the partitioned trie with the in-memory intermediate
  serializer (`MemoryTrieSerializer.memory_cache` becomes an explicit store);
* the binary codec of `BinaryTrieSerializer`/`NodeTrieSerializer`
  (`do_serialize`, `deserialize`, `read_toc`, `read_from_pos`,
  `random_access`), with files as lists of byte values and the configurable
  text encoding as an explicit `(enc, dec)` parameter pair;
* `Filterer.pwd_is_valid`, `Guesser.relevel_prediction`,
  `ModelDefaults.validate`, `GuessSerializer.serialize`;
* `Guesser.recur` and `ParallelGuesser` (`recur`, `collect_answer`), with
  probabilities as rationals and the neural model as an abstract oracle
  giving the per-character conditional probabilities.

Theorems named `claim_*` settle the specification claims; everything else is
supporting theory.
-/

/-! ## Basic string helpers -/

/-- `PASSWORD_END = '\n'`, the end-of-password marker of `pwd_guess.py`. -/
def PASSWORD_END : Char := '\n'

/-- Python's `astring.strip(PASSWORD_END)`: remove every leading and trailing
occurrence of the end marker (strings are modelled as `List Char`). -/
def pstrip (s : List Char) : List Char :=
  ((s.dropWhile (· = PASSWORD_END)).reverse.dropWhile (· = PASSWORD_END)).reverse

/-! ## NodeTrie

`NodeTrie` has a `weight` and a dict `nodes` from characters to child tries
(`collections.defaultdict(NodeTrie)`); the dict is modelled as an association
list in insertion order, matching Python dict iteration order. -/

inductive NodeTrie where
  | mk (weight : ℕ) (nodes : List (Char × NodeTrie))

def NodeTrie.weight : NodeTrie → ℕ
  | .mk w _ => w

def NodeTrie.nodes : NodeTrie → List (Char × NodeTrie)
  | .mk _ ns => ns

/-- `NodeTrie()`: weight 0, no children. -/
def NodeTrie.new : NodeTrie := .mk 0 []

@[simp] theorem NodeTrie.weight_mk (w ns) : (NodeTrie.mk w ns).weight = w := rfl
@[simp] theorem NodeTrie.nodes_mk (w ns) : (NodeTrie.mk w ns).nodes = ns := rfl

/-- Dict lookup `self.nodes[c]` (read-only part). -/
def lookupChild (c : Char) : List (Char × NodeTrie) → Option NodeTrie
  | [] => none
  | (k, v) :: rest => if k = c then some v else lookupChild c rest

/-- `defaultdict` access-and-update: `root.nodes[c]` creates an empty child at
the end of the dict when `c` is absent; the accessed child is then updated
in place by the continuation `f` (the rest of the increment loop). -/
def updateChild (f : NodeTrie → NodeTrie) : List (Char × NodeTrie) → Char → List (Char × NodeTrie)
  | [], c => [(c, f NodeTrie.new)]
  | (k, v) :: rest, c => if k = c then (k, f v) :: rest else (k, v) :: updateChild f rest c

/-- The `while` loop of `NodeTrie.increment_optimized`, entered with the
cursor `root` at the current node and `inc_str` the remaining characters:
each iteration adds `weight` to the current node and descends into
`root.nodes[next_char]`; after the loop the final node gets `weight` too. -/
def NodeTrie.incrementGo (w : ℕ) : NodeTrie → List Char → NodeTrie
  | .mk wt ns, [] => .mk (wt + w) ns
  | .mk wt ns, c :: rest =>
      .mk (wt + w) (updateChild (fun child => NodeTrie.incrementGo w child rest) ns c)

/-- `NodeTrie.increment_optimized(anode, aword, weight)`: before the loop the
root's weight is incremented once (`root.weight += weight`), and then the loop
body runs (which increments the current node — initially the root again —
on every iteration). -/
def NodeTrie.increment_optimized (anode : NodeTrie) (aword : List Char) (w : ℕ) : NodeTrie :=
  NodeTrie.incrementGo w (.mk (anode.weight + w) anode.nodes) aword

/-- `NodeTrie.increment` delegates to `increment_optimized`. -/
def NodeTrie.increment (t : NodeTrie) (aword : List Char) (w : ℕ) : NodeTrie :=
  t.increment_optimized aword w

mutual
/-- `NodeTrie.random_iterate(cur)`: yield `(cur, weight)` unless `cur` is the
root prefix, then recurse into every child in dict order. -/
def NodeTrie.random_iterate : NodeTrie → List Char → List (List Char × ℕ)
  | .mk w ns, cur =>
      (if cur = [] then [] else [(cur, w)]) ++ randIterChildren ns cur
/-- The `for key in self.nodes` loop of `random_iterate`. -/
def randIterChildren : List (Char × NodeTrie) → List Char → List (List Char × ℕ)
  | [], _ => []
  | (k, child) :: rest, cur =>
      NodeTrie.random_iterate child (cur ++ [k]) ++ randIterChildren rest cur
end

/-- `NodeTrie.iterate(serial_type)` for the regular (`'reg'`) serializer type
used by `NodeTrieSerializer`: `random_iterate` from the root. -/
def NodeTrie.iterate (t : NodeTrie) : List (List Char × ℕ) :=
  t.random_iterate []

/-- Follow a path of characters through the trie (a specification-side
observer; the source accesses nodes only through `increment`/iteration). -/
def NodeTrie.get : NodeTrie → List Char → Option NodeTrie
  | t, [] => some t
  | t, c :: rest =>
      match lookupChild c t.nodes with
      | some child => child.get rest
      | none => none

/-- Weight of the node at path `p` (0 when the path does not exist). -/
def NodeTrie.wt (t : NodeTrie) (p : List Char) : ℕ :=
  match t.get p with
  | some n => n.weight
  | none => 0

/-- Well-formedness: every dict in the trie has pairwise-distinct keys (true
of Python dicts by construction). -/
inductive NodeTrie.WF : NodeTrie → Prop
  | mk {w : ℕ} {ns : List (Char × NodeTrie)} :
      (ns.map Prod.fst).Nodup → (∀ p ∈ ns, NodeTrie.WF p.2) → NodeTrie.WF (.mk w ns)

/-- Accumulate a list of `(key, weight)` increments into a fresh trie, the way
`TriePreprocessor.begin` feeds passwords to `self.trie.increment`. -/
def buildTrie (L : List (List Char × ℕ)) : NodeTrie :=
  L.foldl (fun t kw => t.increment kw.1 kw.2) NodeTrie.new

/-! ## Configuration (`ModelDefaults`) and character table -/

/-- The configuration attributes of `ModelDefaults` that the verified core
reads (probabilities are modelled as rationals). -/
structure ModelDefaults where
  char_bag : List Char
  max_len : ℕ
  min_len : ℕ
  lower_probability_threshold : ℚ
  fork_length : ℕ
  trie_serializer_type : String
  simulated_frequency_optimization : Bool
  trie_implementation : Option String
  model_truncate_gradient : ℤ
  toc_chunk_size : ℕ

/-- `ModelDefaults.validate`: the conjunction of its `assert` statements
(`True` = all asserts pass, `False` = an `AssertionError` is raised). -/
def ModelDefaults.validate (c : ModelDefaults) : Bool :=
  (!(c.trie_serializer_type == "fuzzy") ||
      (c.simulated_frequency_optimization && c.trie_implementation.isSome)) &&
  decide (c.fork_length < c.min_len) &&
  ((c.model_truncate_gradient == -1) ||
      decide (c.model_truncate_gradient < (c.max_len : ℤ)))

/-- `CharacterTable.__init__`: `self.chars = sorted(set(chars))` (ascending,
duplicates removed). -/
def CharacterTable.chars (c : ModelDefaults) : List Char :=
  c.char_bag.dedup.insertionSort (· ≤ ·)

/-- `CharacterTable.get_char_index`: position of a character in `chars`. -/
def CharacterTable.get_char_index (c : ModelDefaults) (ch : Char) : ℕ :=
  (CharacterTable.chars c).indexOf ch

/-! ## Filterer and releveling -/

/-- `Filterer.pwd_is_valid` (its pure result; the statistics side effects are
irrelevant here): strip the end marker, then require every character in the
configured `char_bag` and the length within `[min_len, max_len]`. -/
def Filterer.pwd_is_valid (c : ModelDefaults) (pwd : List Char) : Bool :=
  let p := pstrip pwd
  p.all (fun ch => c.char_bag.contains ch) &&
    decide (p.length ≤ c.max_len) && decide (c.min_len ≤ p.length)

/-- `Guesser.relevel_prediction(preds, astring)`: zero the end marker's entry
when `astring` is invalid; otherwise, when `astring` has reached `max_len`,
set the end marker's entry to 1 and all others to 0; finally divide every
entry by the sum. -/
def Guesser.relevel_prediction (c : ModelDefaults) (preds : List ℚ) (astring : List Char) :
    List ℚ :=
  let chars := CharacterTable.chars c
  let preds1 :=
    if ¬ (Filterer.pwd_is_valid c astring = true) then
      preds.set (CharacterTable.get_char_index c PASSWORD_END) 0
    else if astring.length = c.max_len then
      chars.foldl
        (fun ps ch => ps.set (CharacterTable.get_char_index c ch)
          (if ch = PASSWORD_END then 1 else 0)) preds
    else preds
  let sum_per := preds1.sum
  preds1.map (fun v => v / sum_per)

/-- `GuessSerializer.serialize(password, prob)` writes the line
`password.strip(PASSWORD_END) + '\t' + str(prob) + '\n'`; the rendering of
the probability is the external `str` formatting, an injected parameter. -/
def GuessSerializer.serialize (render : ℚ → List Char) (password : List Char) (prob : ℚ) :
    List Char :=
  pstrip password ++ ['\t'] ++ render prob ++ ['\n']

/-! ## Guesser.recur

`Guesser.recur(astring, prob)` is modelled with an explicit recursion-depth
counter: every recursive call extends `astring` by one character and the
function returns without recursing once `astring.length > max_len`, so from
a prefix of length `L` the recursion nests at most `max_len + 1 - L` calls;
`Guesser.recur` below supplies exactly that bound, making the `0` case
unreachable.  The oracle `oracle astring ch` is the conditional probability
`cond_prob_from_preds(ch, conditional_probs(astring))`.  The result is the
pair (emitted `(password, probability)` list, list of `(prefix, probability)`
states at which `conditional_probs` queried the model). -/
def Guesser.recurFuel (c : ModelDefaults) (oracle : List Char → Char → ℚ) :
    ℕ → List Char → ℚ → List (List Char × ℚ) × List (List Char × ℚ)
  | 0, astring, prob =>
      if prob < c.lower_probability_threshold then ([], [])
      else if c.max_len < astring.length then
        ((if (pstrip astring).length = c.max_len then [(astring, prob)] else []), [])
      else ([], [])
  | fuel + 1, astring, prob =>
      if prob < c.lower_probability_threshold then ([], [])
      else if c.max_len < astring.length then
        ((if (pstrip astring).length = c.max_len then [(astring, prob)] else []), [])
      else
        let rs := (CharacterTable.chars c).map (fun ch =>
          if ch = PASSWORD_END then
            (if c.lower_probability_threshold ≤ oracle astring ch * prob then
              ([(astring ++ [ch], oracle astring ch * prob)],
                ([] : List (List Char × ℚ)))
             else ([], []))
          else
            Guesser.recurFuel c oracle fuel (astring ++ [ch]) (oracle astring ch * prob))
        ((rs.map Prod.fst).flatten, (astring, prob) :: (rs.map Prod.snd).flatten)

/-- `Guesser.recur` with the sufficient depth bound (see `recurFuel`). -/
def Guesser.recur (c : ModelDefaults) (oracle : List Char → Char → ℚ)
    (astring : List Char) (prob : ℚ) :
    List (List Char × ℚ) × List (List Char × ℚ) :=
  Guesser.recurFuel c oracle (c.max_len + 1 - astring.length) astring prob

/-- Concrete configuration for the C2 witness: alphabet `{a, END}`,
`max_len = 0`, threshold `0`. -/
def cfgC2 : ModelDefaults := ⟨['a', PASSWORD_END], 0, 1, 0, 2, "reg", false, none, -1, 1000⟩

/-- Concrete configuration for the C10 witness. -/
def cfgC10 : ModelDefaults := ⟨['a', PASSWORD_END], 0, 1, 0, 2, "reg", false, none, -1, 1000⟩

/-! ## Claim C8 (configuration validation) -/

/-- Replace only the probability threshold of a configuration. -/
def setThreshold (c : ModelDefaults) (q : ℚ) : ModelDefaults :=
  ⟨c.char_bag, c.max_len, c.min_len, q, c.fork_length, c.trie_serializer_type,
    c.simulated_frequency_optimization, c.trie_implementation,
    c.model_truncate_gradient, c.toc_chunk_size⟩

/-! ## ParallelGuesser and Claim C9 -/

/-- `ParallelGuesser.recur`: identical to `Guesser.recur` except that any
prefix of length `fork_length` is recorded as a fork point (second
component) instead of being expanded; recursive calls dispatch back here.
Depth accounting is as in `Guesser.recurFuel`. -/
def ParallelGuesser.recurFuel (c : ModelDefaults) (oracle : List Char → Char → ℚ) :
    ℕ → List Char → ℚ → List (List Char × ℚ) × List (List Char × ℚ)
  | 0, astring, prob =>
      if astring.length = c.fork_length then ([], [(astring, prob)])
      else if prob < c.lower_probability_threshold then ([], [])
      else if c.max_len < astring.length then
        ((if (pstrip astring).length = c.max_len then [(astring, prob)] else []), [])
      else ([], [])
  | fuel + 1, astring, prob =>
      if astring.length = c.fork_length then ([], [(astring, prob)])
      else if prob < c.lower_probability_threshold then ([], [])
      else if c.max_len < astring.length then
        ((if (pstrip astring).length = c.max_len then [(astring, prob)] else []), [])
      else
        let rs := (CharacterTable.chars c).map (fun ch =>
          if ch = PASSWORD_END then
            (if c.lower_probability_threshold ≤ oracle astring ch * prob then
              ([(astring ++ [ch], oracle astring ch * prob)],
                ([] : List (List Char × ℚ)))
             else ([], []))
          else
            ParallelGuesser.recurFuel c oracle fuel (astring ++ [ch])
              (oracle astring ch * prob))
        ((rs.map Prod.fst).flatten, (rs.map Prod.snd).flatten)

/-- `ParallelGuesser.recur` with the sufficient depth bound. -/
def ParallelGuesser.recur (c : ModelDefaults) (oracle : List Char → Char → ℚ)
    (astring : List Char) (prob : ℚ) :
    List (List Char × ℚ) × List (List Char × ℚ) :=
  ParallelGuesser.recurFuel c oracle (c.max_len + 1 - astring.length) astring prob

/-- `ParallelGuesser.collect_answer`: copy every line of every stream, in
stream order, into the real output (streams are the root's temporary output
followed by each forked worker's file in fork-point discovery order). -/
def ParallelGuesser.collect_answer (streams : List (List (List Char × ℚ))) :
    List (List Char × ℚ) :=
  streams.flatten

/-- The whole parallel run (`guess` = root-phase `recur('', 1)` plus
`do_forking`, every worker succeeding): each fork point is handed to a
worker running `Guesser.recur` from that point, and `collect_answer` merges
root output and worker outputs. -/
def ParallelGuesser.guess_output (c : ModelDefaults) (oracle : List Char → Char → ℚ) :
    List (List Char × ℚ) :=
  let r := ParallelGuesser.recur c oracle [] 1
  ParallelGuesser.collect_answer
    (r.1 :: r.2.map (fun node => (Guesser.recur c oracle node.1 node.2).1))

/-! ## Binary trie serializer

Files are lists of byte values.  `struct.pack`/`unpack` with format `<Q`
(little-endian unsigned 64-bit) become `encode64`/`leNat`; `struct.pack`
raises for out-of-range values, modelled with `Except`.  The configured text
encoding (`trie_serializer_encoding`, default UTF-8) is an explicit
parameter pair `enc : List Char → List ℕ`, `dec : List ℕ → List Char`. -/

/-- `struct.pack('<Q', n)` for `n < 2^64`: eight little-endian bytes. -/
def encode64 (n : ℕ) : List ℕ :=
  [n % 256, n / 256 % 256, n / 256 ^ 2 % 256, n / 256 ^ 3 % 256,
   n / 256 ^ 4 % 256, n / 256 ^ 5 % 256, n / 256 ^ 6 % 256, n / 256 ^ 7 % 256]

/-- `struct.unpack('<Q', -)`: little-endian byte list to natural number. -/
def leNat : List ℕ → ℕ
  | [] => 0
  | b :: rest => b + 256 * leNat rest

/-- `afile.read(k)` at position `pos`: at most `k` bytes, fewer at EOF; the
new position is `pos` plus the number of bytes actually read. -/
def fread (file : List ℕ) (pos k : ℕ) : List ℕ :=
  (file.drop pos).take k

/-- `BinaryTrieSerializer.write_string`: a 1-byte length prefix
(`struct.pack('<B', len)`, raising if the encoded string exceeds 255 bytes)
followed by the encoded bytes. -/
def BinaryTrieSerializer.write_string (enc : List Char → List ℕ) (s : List Char) :
    Except Unit (List ℕ) :=
  let bs := enc s
  if bs.length ≤ 255 then .ok (bs.length :: bs) else .error ()

/-- `NodeTrieSerializer.write_value`: `struct.pack('<Q', weight)`, raising
for weights that do not fit in 64 bits. -/
def NodeTrieSerializer.write_value (w : ℕ) : Except Unit (List ℕ) :=
  if w < 2 ^ 64 then .ok (encode64 w) else .error ()

/-- `write_record`: string then value. -/
def BinaryTrieSerializer.write_record (enc : List Char → List ℕ)
    (pwd : List Char) (w : ℕ) : Except Unit (List ℕ) := do
  let sb ← BinaryTrieSerializer.write_string enc pwd
  let vb ← NodeTrieSerializer.write_value w
  .ok (sb ++ vb)

/-- The byte image of one well-formed record (specification shorthand). -/
def recordBytes (enc : List Char → List ℕ) (e : List Char × ℕ) : List ℕ :=
  ((enc e.1).length :: enc e.1) ++ encode64 e.2

/-- The data section: concatenated record images. -/
def catBytes (enc : List Char → List ℕ) (es : List (List Char × ℕ)) : List ℕ :=
  (es.map (recordBytes enc)).flatten

/-- The `for item in trie.iterate(...)` loop of `do_serialize`: write each
record, counting records and recording `afile.tell()` in the table of
contents after every `toc_chunk_size`-th record (`records % chunk`, a
`ZeroDivisionError` when the chunk size is 0). -/
def serializeLoop (enc : List Char → List ℕ) (chunk : ℕ) :
    List (List Char × ℕ) → ℕ → ℕ → Except Unit (List ℕ × List (ℕ × ℕ))
  | [], _, _ => .ok ([], [])
  | e :: es, records, pos => do
      let rb ← BinaryTrieSerializer.write_record enc e.1 e.2
      if chunk = 0 then .error () else do
        let rest ← serializeLoop enc chunk es (records + 1) (pos + rb.length)
        .ok (rb ++ rest.1,
          (if (records + 1) % chunk = 0 then [(records + 1, pos + rb.length)] else [])
            ++ rest.2)

/-- Specification of the table of contents the loop produces. -/
def tocOf (enc : List Char → List ℕ) (chunk : ℕ) :
    List (List Char × ℕ) → ℕ → ℕ → List (ℕ × ℕ)
  | [], _, _ => []
  | e :: es, records, pos =>
      (if (records + 1) % chunk = 0
       then [(records + 1, pos + (recordBytes enc e).length)] else []) ++
        tocOf enc chunk es (records + 1) (pos + (recordBytes enc e).length)

/-- `BinaryTrieSerializer.do_serialize` for the regular serializer: reserve a
16-byte zero header, stream the records from `trie.iterate('reg')` while
building the TOC, append the TOC entries sorted by key, then patch the header
with the true record count and TOC start offset.  The result is the final
byte content of the file (`struct.pack('<QQ', ...)` raising if the counts do
not fit 64 bits). -/
def BinaryTrieSerializer.do_serialize (enc : List Char → List ℕ) (chunk : ℕ)
    (t : NodeTrie) : Except Unit (List ℕ) := do
  let dt ← serializeLoop enc chunk t.iterate 0 16
  let records := t.iterate.length
  let toc_start := 16 + dt.1.length
  if records < 2 ^ 64 ∧ toc_start < 2 ^ 64 then
    .ok (encode64 records ++ encode64 toc_start ++ dt.1 ++
      (((dt.2.insertionSort (fun a b => a.1 ≤ b.1)).map
        (fun kv => encode64 kv.1 ++ encode64 kv.2)).flatten))
  else .error ()

/-- `BinaryTrieSerializer.read_string`: one length byte (`None` at clean
EOF), then that many bytes, decoded. -/
def BinaryTrieSerializer.read_string (dec : List ℕ → List Char)
    (file : List ℕ) (pos : ℕ) : Option (List Char × ℕ) :=
  match fread file pos 1 with
  | [] => none
  | b :: _ =>
      let sb := fread file (pos + 1) b
      some (dec sb, pos + 1 + sb.length)

/-- `NodeTrieSerializer.read_value`: `struct.unpack_from('<Q', read(8))`,
raising when fewer than 8 bytes remain. -/
def NodeTrieSerializer.read_value (file : List ℕ) (pos : ℕ) :
    Except Unit (ℕ × ℕ) :=
  let vb := fread file pos 8
  if vb.length < 8 then .error () else .ok (leNat vb, pos + 8)

/-- `read_record`: `None` propagates a clean EOF at a record boundary; a
short value read is a fatal decode error. -/
def BinaryTrieSerializer.read_record (dec : List ℕ → List Char)
    (file : List ℕ) (pos : ℕ) :
    Except Unit (Option ((List Char × ℕ) × ℕ)) :=
  match BinaryTrieSerializer.read_string dec file pos with
  | none => .ok none
  | some (s, pos1) =>
      match NodeTrieSerializer.read_value file pos1 with
      | .error _ => .error ()
      | .ok (v, pos2) => .ok (some ((s, v), pos2))

/-- The `for _ in range(num_records)` loop of `deserialize`: `break` on a
`None` record (clean EOF), propagate decode errors. -/
def deserializeLoop (dec : List ℕ → List Char) (file : List ℕ) :
    ℕ → ℕ → Except Unit (List (List Char × ℕ))
  | 0, _ => .ok []
  | n + 1, pos =>
      match BinaryTrieSerializer.read_record dec file pos with
      | .error _ => .error ()
      | .ok none => .ok []
      | .ok (some (e, pos')) => do
          let rest ← deserializeLoop dec file n pos'
          .ok (e :: rest)

/-- `BinaryTrieSerializer.deserialize`: read the 16-byte header (raising on a
shorter file), then read `num_records` records in file order. -/
def BinaryTrieSerializer.deserialize (dec : List ℕ → List Char) (file : List ℕ) :
    Except Unit (List (List Char × ℕ)) :=
  if 16 ≤ file.length then
    deserializeLoop dec file (leNat (fread file 0 8)) 16
  else .error ()

/-- The `while True` chunk loop of `read_toc`: 16-byte `(index, offset)`
pairs until EOF; a trailing partial chunk is a decode error.  The counter is
a recursion bound; each iteration consumes 16 bytes, so
`file.length + 1` iterations always suffice. -/
def readTocLoop (file : List ℕ) : ℕ → ℕ → Except Unit (List (ℕ × ℕ))
  | 0, _ => .error ()
  | fuel + 1, pos =>
      let chunk := fread file pos 16
      if chunk.length = 0 then .ok []
      else if chunk.length < 16 then .error ()
      else do
        let rest ← readTocLoop file fuel (pos + 16)
        .ok ((leNat (chunk.take 8), leNat (chunk.drop 8)) :: rest)

/-- `BinaryTrieSerializer.read_toc`: read the header, seek to the TOC start
and read `(index, offset)` pairs until EOF. -/
def BinaryTrieSerializer.read_toc (file : List ℕ) :
    Except Unit (List (ℕ × ℕ) × ℕ) :=
  if 16 ≤ file.length then do
    let toc ← readTocLoop file (file.length + 1) (leNat (fread file 8 8))
    .ok (toc, leNat (fread file 8 8))
  else .error ()

/-- The `while afile.tell() < end_pos` loop of `read_from_pos`; the `assert
item is not None` makes a `None` record fatal.  The counter is a recursion
bound; every record consumes at least its length byte, so `endPos - pos`
iterations always suffice. -/
def readFromPosLoop (dec : List ℕ → List Char) (file : List ℕ) (endPos : ℕ) :
    ℕ → ℕ → Except Unit (List (List Char × ℕ))
  | 0, pos => if pos < endPos then .error () else .ok []
  | fuel + 1, pos =>
      if pos < endPos then
        match BinaryTrieSerializer.read_record dec file pos with
        | .error _ => .error ()
        | .ok none => .error ()
        | .ok (some (e, pos')) => do
            let rest ← readFromPosLoop dec file endPos fuel pos'
            .ok (e :: rest)
      else .ok []

/-- `BinaryTrieSerializer.read_from_pos`. -/
def BinaryTrieSerializer.read_from_pos (dec : List ℕ → List Char)
    (file : List ℕ) (startPos endPos : ℕ) :
    Except Unit (List (List Char × ℕ)) :=
  readFromPosLoop dec file endPos (endPos - startPos) startPos

/-- The interval list `random_access` builds before shuffling: Python's
`toc` dict keyed in insertion order with last-write-wins values,
`sorted(toc.keys())`, `start_pos = [16] + toc_locations`,
`end_pos = toc_locations + [toc_start]`. -/
def BinaryTrieSerializer.intervals (file : List ℕ) :
    Except Unit (List (ℕ × ℕ)) := do
  let tt ← BinaryTrieSerializer.read_toc file
  let toc_locations :=
    (((tt.1.map Prod.fst).dedup).insertionSort (· ≤ ·)).map
      (fun k => ((tt.1.reverse.find? (fun kv => decide (kv.1 = k))).map
        Prod.snd).getD 0)
  .ok (List.zip (16 :: toc_locations) (toc_locations ++ [tt.2]))

/-- The `for interval in intervals` loop of `random_access`. -/
def readIntervals (dec : List ℕ → List Char) (file : List ℕ) :
    List (ℕ × ℕ) → Except Unit (List (List (List Char × ℕ)))
  | [] => .ok []
  | iv :: ivs => do
      let r ← BinaryTrieSerializer.read_from_pos dec file iv.1 iv.2
      let rest ← readIntervals dec file ivs
      .ok (r :: rest)

/-- `BinaryTrieSerializer.random_access`, parameterized by the shuffled
interval order (`random.shuffle` permutes `intervals`; theorems quantify
over every permutation). -/
def BinaryTrieSerializer.random_access (dec : List ℕ → List Char)
    (file : List ℕ) (shuffled : List (ℕ × ℕ)) :
    Except Unit (List (List Char × ℕ)) := do
  let rss ← readIntervals dec file shuffled
  .ok rss.flatten

/-- Byte image of the TOC section. -/
def tocBytes (pairs : List (ℕ × ℕ)) : List ℕ :=
  (pairs.map (fun kv => encode64 kv.1 ++ encode64 kv.2)).flatten

/-- Concrete encoder for the C4 instance: code points of the characters. -/
def encC4 : List Char → List ℕ := fun s => s.map Char.toNat

/-- Concrete decoder for the C4 instance: characters of the code points. -/
def decC4 : List ℕ → List Char := fun bs => bs.map Char.ofNat

/-- Concrete trie for the C4 instance: five records with chunk size 2, the
TOC scenario of the specification. -/
def trieC4 : NodeTrie :=
  buildTrie [(['a', 'b'], 1), (['c', 'd'], 1), (['e'], 1)]

/-! ### DiskBackedTrie (with `trie_intermediate_storage = ':memory:'`, so the
intermediate serializer is `MemoryTrieSerializer` and `memory_cache` is a dict
keyed by the sanitized branch key `str(self.keys.index(prefix))`). -/

/-- `MemoryTrieSerializer.memory_cache[fname] = trie` on a dict modelled as an
association list: overwrite the first binding of the key, else append. -/
def dictSet : List (ℕ × NodeTrie) → ℕ → NodeTrie → List (ℕ × NodeTrie)
  | [], k, v => [(k, v)]
  | (k', v') :: rest, k, v =>
      if k' = k then (k', v) :: rest else (k', v') :: dictSet rest k v

/-- Dict lookup: `memory_cache[fname]` (`none` models the `KeyError`). -/
def dictGet (store : List (ℕ × NodeTrie)) (k : ℕ) : Option NodeTrie :=
  (store.find? (fun kv => decide (kv.1 = k))).map Prod.snd

/-- State of a `DiskBackedTrie`: the open branch (`current_node`,
`current_branch_key`), the top-level `weights` trie over fork prefixes, the
`keys` list of opened branch keys, `fork_length`, the memory cache `store`
standing for the serialized partitions, and `serialize_log`, the sequence of
sanitized indices passed to `make_serializer().serialize(...)` (observer
recording each serialization event, used to state how often each partition is
written). -/
structure DiskBackedTrie where
  current_node : Option NodeTrie
  current_branch_key : Option (List Char)
  weights : NodeTrie
  keys : List (List Char)
  fork_length : ℕ
  store : List (ℕ × NodeTrie)
  serialize_log : List ℕ

/-- `DiskBackedTrie.__init__`. -/
def DiskBackedTrie.new (fork_length : ℕ) : DiskBackedTrie :=
  ⟨none, none, NodeTrie.new, [], fork_length, [], []⟩

/-- `DiskBackedTrie.close_branch`: if a branch is open, serialize its node
under `str(self.keys.index(prefix))` and reset both fields.  (When
`current_branch_key` is set but `current_node` is `None`, Python's
`assert self.current_node is not None` raises; that state is unreachable, and
this embedding makes the branch a plain reset.) -/
def DiskBackedTrie.close_branch (d : DiskBackedTrie) : DiskBackedTrie :=
  match d.current_branch_key, d.current_node with
  | some key, some node =>
      ⟨none, none, d.weights, d.keys, d.fork_length,
        dictSet d.store (d.keys.indexOf key) node,
        d.serialize_log ++ [d.keys.indexOf key]⟩
  | _, _ =>
      ⟨none, none, d.weights, d.keys, d.fork_length, d.store, d.serialize_log⟩

/-- `DiskBackedTrie.open_new_branch`. -/
def DiskBackedTrie.open_new_branch (d : DiskBackedTrie) (key : List Char) :
    DiskBackedTrie :=
  let d' := d.close_branch
  ⟨some NodeTrie.new, some key, d'.weights, d'.keys ++ [key], d'.fork_length,
    d'.store, d'.serialize_log⟩

/-- `DiskBackedTrie.increment`: split the word at `fork_length`, switch
branches when the fork prefix changed, then increment the `weights` trie with
the fork prefix and the open branch's node with the remainder. -/
def DiskBackedTrie.increment (d : DiskBackedTrie) (aword : List Char)
    (weight : ℕ) : DiskBackedTrie :=
  let start := aword.take d.fork_length
  let rest := aword.drop d.fork_length
  let d' := if d.current_branch_key = some start then d
            else d.open_new_branch start
  ⟨(d'.current_node).map (fun nd => nd.increment rest weight),
    d'.current_branch_key,
    d'.weights.increment start weight,
    d'.keys, d'.fork_length, d'.store, d'.serialize_log⟩

/-- `DiskBackedTrie.finish`. -/
def DiskBackedTrie.finish (d : DiskBackedTrie) : DiskBackedTrie :=
  match d.current_branch_key with
  | none => d
  | some _ => d.close_branch

/-- `DiskBackedTrie.iterate('reg')`: finish, yield the `weights` entries,
then for each key in `self.keys` deserialize the partition stored under
`str(self.keys.index(key))` and yield its entries re-prefixed with the key
(a missing cache entry is Python's `KeyError`, modelled as no entries; it is
unreachable after `finish`). -/
def DiskBackedTrie.iterate (d : DiskBackedTrie) : List (List Char × ℕ) :=
  let d' := d.finish
  d'.weights.random_iterate [] ++
    d'.keys.flatMap (fun key =>
      match dictGet d'.store (d'.keys.indexOf key) with
      | none => []
      | some subtrie =>
          (subtrie.random_iterate []).map (fun e => (key ++ e.1, e.2)))

/-- Feed a list of `(key, weight)` pairs to a fresh `DiskBackedTrie`, the way
`TriePreprocessor` feeds passwords. -/
def buildDiskTrie (fork_length : ℕ) (ws : List (List Char × ℕ)) :
    DiskBackedTrie :=
  ws.foldl (fun d e => d.increment e.1 e.2) (DiskBackedTrie.new fork_length)

/-- The increments contributed by one branch: every item's remainder gets the
block key back as its fork prefix. -/
def blockItems (bk : List Char) (its : List (List Char × ℕ)) :
    List (List Char × ℕ) :=
  its.map (fun it => (bk ++ it.1, it.2))

/-- The iterate entries contributed by one serialized partition. -/
def partEntries (bl : List Char × List (List Char × ℕ)) :
    List (List Char × ℕ) :=
  ((buildTrie bl.2).random_iterate []).map (fun e => (bl.1 ++ e.1, e.2))

/-- Concrete grouped blocks for the C6 instance: the specification's
`("ab","cd")`-style keys with fork length 2. -/
def blocksC6 : List (List Char × List (List Char × ℕ)) :=
  [(['a', 'b'], [(['c', 'd'], 1)]), (['e', 'f'], [(['g', 'h'], 1)])]

/-! ### NodeTrie theory -/

/-- Structural induction adapted to the nested inductive. -/
theorem NodeTrie.ind (motive : NodeTrie → Prop)
    (h : ∀ w ns, (∀ p ∈ ns, motive p.2) → motive (NodeTrie.mk w ns)) : ∀ t, motive t := by
  have key : ∀ n (t : NodeTrie), sizeOf t ≤ n → motive t := by
    intro n
    induction n with
    | zero =>
        intro t hle
        cases t with
        | mk w ns => simp only [NodeTrie.mk.sizeOf_spec] at hle; omega
    | succ n ih =>
        intro t hle
        cases t with
        | mk w ns =>
            apply h
            intro p hp
            apply ih
            have h1 := List.sizeOf_lt_of_mem hp
            have h2 : sizeOf p.2 < sizeOf p := by
              cases p with
              | mk a b => simp only [Prod.mk.sizeOf_spec]; omega
            simp only [NodeTrie.mk.sizeOf_spec] at hle
            omega
  exact fun t => key (sizeOf t) t le_rfl

theorem NodeTrie.WF.new : NodeTrie.WF NodeTrie.new :=
  ⟨List.nodup_nil, by intro p hp; cases hp⟩

@[simp] theorem wt_nil (t : NodeTrie) : t.wt [] = t.weight := by
  simp [NodeTrie.wt, NodeTrie.get]

@[simp] theorem wt_new (p : List Char) : NodeTrie.new.wt p = 0 := by
  cases p with
  | nil => simp [NodeTrie.new]
  | cons c rest => simp [NodeTrie.wt, NodeTrie.get, NodeTrie.new, lookupChild]

theorem wt_cons (w : ℕ) (ns : List (Char × NodeTrie)) (c : Char) (p : List Char) :
    (NodeTrie.mk w ns).wt (c :: p) = ((lookupChild c ns).getD NodeTrie.new).wt p := by
  cases h : lookupChild c ns with
  | none =>
      simp only [Option.getD_none, wt_new]
      simp [NodeTrie.wt, NodeTrie.get, h]
  | some child =>
      simp [NodeTrie.wt, NodeTrie.get, h]

theorem lookupChild_updateChild_self (f : NodeTrie → NodeTrie)
    (ns : List (Char × NodeTrie)) (c : Char) :
    lookupChild c (updateChild f ns c) = some (f ((lookupChild c ns).getD NodeTrie.new)) := by
  induction ns with
  | nil => simp [updateChild, lookupChild]
  | cons kv rest ih =>
      obtain ⟨k, v⟩ := kv
      by_cases hk : k = c
      · subst hk; simp [updateChild, lookupChild]
      · simp [updateChild, lookupChild, hk, ih]

theorem lookupChild_updateChild_ne (f : NodeTrie → NodeTrie)
    (ns : List (Char × NodeTrie)) (c c' : Char) (h : c' ≠ c) :
    lookupChild c' (updateChild f ns c) = lookupChild c' ns := by
  induction ns with
  | nil => simp [updateChild, lookupChild, Ne.symm h]
  | cons kv rest ih =>
      obtain ⟨k, v⟩ := kv
      by_cases hk : k = c
      · subst hk
        simp [updateChild, lookupChild, Ne.symm h]
      · simp only [updateChild, if_neg hk, lookupChild]
        by_cases hk' : k = c'
        · simp [hk']
        · simp [hk', ih]

theorem wt_incrementGo (w : ℕ) :
    ∀ (k : List Char) (t : NodeTrie) (p : List Char),
      (NodeTrie.incrementGo w t k).wt p = t.wt p + (if p <+: k then w else 0) := by
  intro k
  induction k with
  | nil =>
      intro t p
      cases t with
      | mk wt ns =>
          cases p with
          | nil => simp [NodeTrie.incrementGo]
          | cons c p' =>
              have : ¬ (c :: p' <+: ([] : List Char)) := by
                intro h
                exact absurd (List.IsPrefix.length_le h) (by simp)
              simp [NodeTrie.incrementGo, wt_cons, this]
  | cons c rest ih =>
      intro t p
      cases t with
      | mk wt ns =>
          cases p with
          | nil => simp [NodeTrie.incrementGo, List.nil_prefix]
          | cons c' p' =>
              by_cases hc : c' = c
              · subst hc
                simp only [NodeTrie.incrementGo, wt_cons, lookupChild_updateChild_self, Option.getD_some]
                rw [ih]
                simp [List.cons_prefix_cons]
              · have hpre : ¬ (c' :: p' <+: c :: rest) := by
                  simp [List.cons_prefix_cons, hc]
                simp [NodeTrie.incrementGo, wt_cons,
                  lookupChild_updateChild_ne _ _ _ _ hc, hpre]

/-- Net effect of one `increment` on node weights: every nonempty prefix of
the key gains `weight` once, while the root gains it twice (once before the
loop and once more on the first loop iteration). -/
theorem wt_increment (t : NodeTrie) (k : List Char) (w : ℕ) (p : List Char) :
    (t.increment k w).wt p =
      t.wt p + (if p = [] then 2 * w else if p <+: k then w else 0) := by
  cases t with
  | mk wt ns =>
      have h1 : (NodeTrie.mk wt ns).increment k w =
          NodeTrie.incrementGo w (.mk (wt + w) ns) k := rfl
      rw [h1, wt_incrementGo]
      cases p with
      | nil =>
          simp [List.nil_prefix]
          omega
      | cons c p' =>
          have h2 : (NodeTrie.mk (wt + w) ns).wt (c :: p') =
              (NodeTrie.mk wt ns).wt (c :: p') := by
            rw [wt_cons, wt_cons]
          rw [h2]
          simp

theorem get_new (p : List Char) :
    NodeTrie.new.get p = if p = [] then some NodeTrie.new else none := by
  cases p with
  | nil => simp [NodeTrie.get]
  | cons c rest => simp [NodeTrie.get, NodeTrie.new, lookupChild]

theorem get_cons_of_lookup_some {c : Char} {ns : List (Char × NodeTrie)} {child : NodeTrie}
    (w : ℕ) (p : List Char) (h : lookupChild c ns = some child) :
    (NodeTrie.mk w ns).get (c :: p) = child.get p := by
  simp [NodeTrie.get, h]

theorem get_cons_of_lookup_none {c : Char} {ns : List (Char × NodeTrie)}
    (w : ℕ) (p : List Char) (h : lookupChild c ns = none) :
    (NodeTrie.mk w ns).get (c :: p) = none := by
  simp [NodeTrie.get, h]

theorem get_incrementGo_ne_none (w : ℕ) :
    ∀ (k : List Char) (t : NodeTrie) (p : List Char),
      (NodeTrie.incrementGo w t k).get p ≠ none ↔ (t.get p ≠ none ∨ p <+: k) := by
  intro k
  induction k with
  | nil =>
      intro t p
      cases t with
      | mk wt ns =>
          cases p with
          | nil => simp [NodeTrie.incrementGo, NodeTrie.get]
          | cons c p' =>
              have hnp : ¬ (c :: p' <+: ([] : List Char)) := by
                intro h
                exact absurd (List.IsPrefix.length_le h) (by simp)
              simp only [NodeTrie.incrementGo, hnp, or_false]
              cases hl : lookupChild c ns with
              | none => rw [get_cons_of_lookup_none _ _ hl, get_cons_of_lookup_none _ _ hl]
              | some child => rw [get_cons_of_lookup_some _ _ hl, get_cons_of_lookup_some _ _ hl]
  | cons c rest ih =>
      intro t p
      cases t with
      | mk wt ns =>
          cases p with
          | nil => simp [NodeTrie.incrementGo, NodeTrie.get, List.nil_prefix]
          | cons c' p' =>
              by_cases hc : c' = c
              · subst hc
                have hup := lookupChild_updateChild_self
                  (fun child => NodeTrie.incrementGo w child rest) ns c'
                rw [NodeTrie.incrementGo,
                  get_cons_of_lookup_some (wt + w) p' hup, ih]
                have hpre : (c' :: p' <+: c' :: rest) ↔ (p' <+: rest) := by
                  simp [List.cons_prefix_cons]
                rw [hpre]
                cases hl : lookupChild c' ns with
                | none =>
                    rw [get_cons_of_lookup_none wt p' hl]
                    simp only [hl, Option.getD_none, get_new]
                    constructor
                    · rintro (h1 | h2)
                      · by_cases hp' : p' = []
                        · subst hp'
                          exact Or.inr List.nil_prefix
                        · simp [hp'] at h1
                      · exact Or.inr h2
                    · rintro (h1 | h2)
                      · exact absurd rfl h1
                      · exact Or.inr h2
                | some child =>
                    rw [get_cons_of_lookup_some wt p' hl]
                    simp only [hl, Option.getD_some]
              · have hnp : ¬ (c' :: p' <+: c :: rest) := by
                  simp [List.cons_prefix_cons, hc]
                have hup := lookupChild_updateChild_ne
                  (fun child => NodeTrie.incrementGo w child rest) ns c c' hc
                simp only [NodeTrie.incrementGo, hnp, or_false]
                cases hl : lookupChild c' ns with
                | none =>
                    rw [get_cons_of_lookup_none _ _ (hup.trans hl),
                      get_cons_of_lookup_none _ _ hl]
                | some child =>
                    rw [get_cons_of_lookup_some _ _ (hup.trans hl),
                      get_cons_of_lookup_some _ _ hl]

theorem get_increment_ne_none (t : NodeTrie) (k : List Char) (w : ℕ) (p : List Char) :
    (t.increment k w).get p ≠ none ↔ (t.get p ≠ none ∨ p <+: k) := by
  cases t with
  | mk wt ns =>
      have h1 : (NodeTrie.mk wt ns).increment k w =
          NodeTrie.incrementGo w (.mk (wt + w) ns) k := rfl
      rw [h1, get_incrementGo_ne_none]
      cases p with
      | nil => simp [NodeTrie.get]
      | cons c p' =>
          cases hl : lookupChild c ns with
          | none => rw [get_cons_of_lookup_none _ _ hl, get_cons_of_lookup_none _ _ hl]
          | some child => rw [get_cons_of_lookup_some _ _ hl, get_cons_of_lookup_some _ _ hl]

theorem lookupChild_mem {c : Char} {ns : List (Char × NodeTrie)} {v : NodeTrie}
    (h : lookupChild c ns = some v) : (c, v) ∈ ns := by
  induction ns with
  | nil => simp [lookupChild] at h
  | cons kv rest ih =>
      obtain ⟨k, u⟩ := kv
      by_cases hk : k = c
      · subst hk
        have h' : u = v := by simpa [lookupChild] using h
        subst h'
        exact List.mem_cons_self _ _
      · rw [lookupChild, if_neg hk] at h
        exact List.mem_cons_of_mem _ (ih h)

theorem mem_lookupChild {c : Char} {ns : List (Char × NodeTrie)} {v : NodeTrie}
    (hnd : (ns.map Prod.fst).Nodup) (h : (c, v) ∈ ns) : lookupChild c ns = some v := by
  induction ns with
  | nil => cases h
  | cons kv rest ih =>
      obtain ⟨k, u⟩ := kv
      simp only [List.map_cons, List.nodup_cons] at hnd
      rcases List.mem_cons.mp h with h1 | h1
      · rw [← h1]
        simp [lookupChild]
      · have hk : k ≠ c := by
          intro hk
          subst hk
          exact hnd.1 (List.mem_map.mpr ⟨(k, v), h1, rfl⟩)
        simp only [lookupChild, if_neg hk]
        exact ih hnd.2 h1

theorem mem_randIterChildren (ns : List (Char × NodeTrie)) (cur : List Char)
    (q : List Char × ℕ) :
    q ∈ randIterChildren ns cur ↔
      ∃ c child, (c, child) ∈ ns ∧ q ∈ child.random_iterate (cur ++ [c]) := by
  induction ns with
  | nil => simp [randIterChildren]
  | cons kv rest ih =>
      obtain ⟨k, child⟩ := kv
      simp only [randIterChildren, List.mem_append, ih]
      constructor
      · rintro (h | ⟨c, ch, hm, hq⟩)
        · exact ⟨k, child, List.mem_cons_self _ _, h⟩
        · exact ⟨c, ch, List.mem_cons_of_mem _ hm, hq⟩
      · rintro ⟨c', ch', hm, hq⟩
        rcases List.mem_cons.mp hm with h1 | h1
        · cases h1
          exact Or.inl hq
        · exact Or.inr ⟨c', ch', h1, hq⟩

theorem NodeTrie.WF.nodup_fst {w : ℕ} {ns : List (Char × NodeTrie)}
    (h : NodeTrie.WF (.mk w ns)) : (ns.map Prod.fst).Nodup := by
  cases h with
  | mk h1 h2 => exact h1

theorem NodeTrie.WF.children {w : ℕ} {ns : List (Char × NodeTrie)}
    (h : NodeTrie.WF (.mk w ns)) : ∀ p ∈ ns, NodeTrie.WF p.2 := by
  cases h with
  | mk h1 h2 => exact h2

/-- What `random_iterate` yields: the pair `(cur ++ p, weight of node at p)`
for every existing path `p`, the node at `cur` itself included unless `cur`
is the root prefix. -/
theorem mem_random_iterate :
    ∀ (t : NodeTrie), t.WF → ∀ (cur : List Char) (q : List Char × ℕ),
      (q ∈ t.random_iterate cur ↔
        ∃ p n, cur ++ p ≠ [] ∧ t.get p = some n ∧ q = (cur ++ p, n.weight)) := by
  intro t
  induction t using NodeTrie.ind with
  | h w ns IH =>
      intro hWF cur q
      simp only [NodeTrie.random_iterate, List.mem_append, mem_randIterChildren]
      constructor
      · rintro (hhead | ⟨c, child, hm, hq⟩)
        · by_cases hcur : cur = []
          · simp [hcur] at hhead
          · simp only [if_neg hcur, List.mem_singleton] at hhead
            exact ⟨[], .mk w ns, by simpa using hcur, rfl, by simpa using hhead⟩
        · have hchild : NodeTrie.WF child := hWF.children _ hm
          rcases (IH _ hm hchild (cur ++ [c]) q).mp hq with ⟨p', n, hne, hget, hqe⟩
          refine ⟨c :: p', n, by simp, ?_, ?_⟩
          · rw [get_cons_of_lookup_some w p' (mem_lookupChild hWF.nodup_fst hm)]
            exact hget
          · rw [hqe]; simp
      · rintro ⟨p, n, hne, hget, rfl⟩
        cases p with
        | nil =>
            simp only [NodeTrie.get, Option.some.injEq] at hget
            subst hget
            simp only [List.append_nil] at hne ⊢
            simp [if_neg hne]
        | cons c p' =>
            cases hl : lookupChild c ns with
            | none => rw [get_cons_of_lookup_none w p' hl] at hget; cases hget
            | some child =>
                rw [get_cons_of_lookup_some w p' hl] at hget
                have hm : (c, child) ∈ ns := lookupChild_mem hl
                have hchild : NodeTrie.WF child := hWF.children _ hm
                refine Or.inr ⟨c, child, hm, ?_⟩
                rw [IH _ hm hchild (cur ++ [c])]
                exact ⟨p', n, by simp, hget, by simp⟩

theorem map_fst_updateChild (f : NodeTrie → NodeTrie) (ns : List (Char × NodeTrie)) (c : Char) :
    (updateChild f ns c).map Prod.fst =
      if c ∈ ns.map Prod.fst then ns.map Prod.fst else ns.map Prod.fst ++ [c] := by
  induction ns with
  | nil => simp [updateChild]
  | cons kv rest ih =>
      obtain ⟨k, v⟩ := kv
      by_cases hk : k = c
      · subst hk
        simp [updateChild]
      · simp only [updateChild, if_neg hk, List.map_cons, ih]
        have hne : ¬ (c = k) := fun h => hk h.symm
        by_cases hm : c ∈ rest.map Prod.fst
        · simp [hm, hne]
        · simp [hm, hne]

theorem mem_updateChild (f : NodeTrie → NodeTrie) (ns : List (Char × NodeTrie)) (c : Char) :
    ∀ q ∈ updateChild f ns c,
      q ∈ ns ∨ q = (c, f ((lookupChild c ns).getD NodeTrie.new)) := by
  induction ns with
  | nil =>
      intro q hq
      simp only [updateChild, List.mem_singleton] at hq
      exact Or.inr (by simp [hq, lookupChild])
  | cons kv rest ih =>
      obtain ⟨k, v⟩ := kv
      intro q hq
      by_cases hk : k = c
      · subst hk
        have heq : updateChild f ((k, v) :: rest) k = (k, f v) :: rest := by
          simp [updateChild]
        rw [heq] at hq
        rcases List.mem_cons.mp hq with hq' | hq'
        · refine Or.inr ?_
          rw [hq']
          simp [lookupChild]
        · exact Or.inl (List.mem_cons_of_mem _ hq')
      · have heq : updateChild f ((k, v) :: rest) c = (k, v) :: updateChild f rest c := by
          simp [updateChild, hk]
        rw [heq] at hq
        rcases List.mem_cons.mp hq with hq' | hq'
        · exact Or.inl (by simp [hq'])
        · rcases ih q hq' with h1 | h1
          · exact Or.inl (List.mem_cons_of_mem _ h1)
          · have hlk : lookupChild c ((k, v) :: rest) = lookupChild c rest := by
              simp [lookupChild, hk]
            rw [hlk]
            exact Or.inr h1

theorem WF_incrementGo (w : ℕ) :
    ∀ (k : List Char) (t : NodeTrie), t.WF → (NodeTrie.incrementGo w t k).WF := by
  intro k
  induction k with
  | nil =>
      intro t h
      cases t with
      | mk wt ns => exact ⟨h.nodup_fst, h.children⟩
  | cons c rest ih =>
      intro t h
      cases t with
      | mk wt ns =>
          refine ⟨?_, ?_⟩
          · rw [map_fst_updateChild]
            by_cases hm : c ∈ ns.map Prod.fst
            · simpa [hm] using h.nodup_fst
            · simp only [if_neg hm]
              rw [List.nodup_append]
              exact ⟨h.nodup_fst, List.nodup_singleton c,
                fun a ha hb => hm (by rwa [List.mem_singleton.mp hb] at ha)⟩
          · intro q hq
            rcases mem_updateChild _ ns c q hq with h1 | h1
            · exact h.children q h1
            · rw [h1]
              apply ih
              cases hl : lookupChild c ns with
              | none => exact NodeTrie.WF.new
              | some child => exact h.children _ (lookupChild_mem hl)

theorem NodeTrie.WF.increment {t : NodeTrie} (h : t.WF) (k : List Char) (w : ℕ) :
    (t.increment k w).WF := by
  cases t with
  | mk wt ns => exact WF_incrementGo w k _ ⟨h.nodup_fst, h.children⟩

theorem WF_foldl_increment (L : List (List Char × ℕ)) :
    ∀ (t : NodeTrie), t.WF → (L.foldl (fun t kw => t.increment kw.1 kw.2) t).WF := by
  induction L with
  | nil => intro t h; exact h
  | cons kw L' ih => intro t h; exact ih _ (h.increment kw.1 kw.2)

theorem WF_buildTrie (L : List (List Char × ℕ)) : (buildTrie L).WF :=
  WF_foldl_increment L _ NodeTrie.WF.new

theorem nodup_fst_randIterChildren (cur : List Char) :
    ∀ (ns : List (Char × NodeTrie)),
      (ns.map Prod.fst).Nodup → (∀ p ∈ ns, p.2.WF) →
      (∀ p ∈ ns, ∀ cur', ((p.2.random_iterate cur').map Prod.fst).Nodup) →
      ((randIterChildren ns cur).map Prod.fst).Nodup := by
  intro ns
  induction ns with
  | nil => intro _ _ _; simp [randIterChildren]
  | cons kv rest ih =>
      obtain ⟨k, child⟩ := kv
      intro hnd hwf hIH
      simp only [List.map_cons, List.nodup_cons] at hnd
      simp only [randIterChildren, List.map_append]
      rw [List.nodup_append]
      refine ⟨hIH _ (List.mem_cons_self _ _) _,
        ih hnd.2 (fun p hp => hwf p (List.mem_cons_of_mem _ hp))
          (fun p hp => hIH p (List.mem_cons_of_mem _ hp)), ?_⟩
      intro a ha hb
      obtain ⟨q, hq, rfl⟩ := List.mem_map.mp ha
      obtain ⟨q', hq', hfst⟩ := List.mem_map.mp hb
      have hch : NodeTrie.WF child := hwf _ (List.mem_cons_self _ _)
      obtain ⟨p, n, -, -, rfl⟩ := (mem_random_iterate child hch (cur ++ [k]) q).mp hq
      obtain ⟨c', ch', hm', hq''⟩ := (mem_randIterChildren rest cur q').mp hq'
      have hch' : NodeTrie.WF ch' := hwf _ (List.mem_cons_of_mem _ hm')
      obtain ⟨p', n', -, -, rfl⟩ :=
        (mem_random_iterate ch' hch' (cur ++ [c']) q').mp hq''
      simp only at hfst
      rw [List.append_assoc, List.append_assoc] at hfst
      have hkc : (k :: p) = (c' :: p') := by
        have := List.append_cancel_left hfst.symm
        simpa using this
      have : k = c' := by injection hkc
      subst this
      exact hnd.1 (List.mem_map.mpr ⟨(k, ch'), hm', rfl⟩)

theorem nodup_fst_random_iterate :
    ∀ (t : NodeTrie), t.WF → ∀ (cur : List Char),
      ((t.random_iterate cur).map Prod.fst).Nodup := by
  intro t
  induction t using NodeTrie.ind with
  | h w ns IH =>
      intro hWF cur
      simp only [NodeTrie.random_iterate, List.map_append]
      rw [List.nodup_append]
      refine ⟨?_, nodup_fst_randIterChildren cur ns hWF.nodup_fst hWF.children
        (fun p hp => IH p hp (hWF.children p hp)), ?_⟩
      · by_cases hcur : cur = [] <;> simp [hcur]
      · intro a ha hb
        by_cases hcur : cur = []
        · simp [hcur] at ha
        · simp only [if_neg hcur, List.map_cons, List.map_nil,
            List.mem_singleton] at ha
          subst ha
          obtain ⟨q, hq, hfst⟩ := List.mem_map.mp hb
          obtain ⟨c, child, hm, hq'⟩ := (mem_randIterChildren ns a q).mp hq
          have hch : NodeTrie.WF child := hWF.children _ hm
          obtain ⟨p, n, -, -, rfl⟩ :=
            (mem_random_iterate child hch (a ++ [c]) q).mp hq'
          simp only at hfst
          have := congrArg List.length hfst
          simp at this

/-- Each reachable nonempty path appears exactly once in the iteration. -/
theorem count_iterate_of_get (t : NodeTrie) (hWF : t.WF) {p : List Char} {n : NodeTrie}
    (hget : t.get p = some n) (hp : p ≠ []) :
    (↑t.iterate : Multiset (List Char × ℕ)).count (p, n.weight) = 1 := by
  have hmem : (p, n.weight) ∈ t.iterate := by
    rw [NodeTrie.iterate, mem_random_iterate t hWF]
    exact ⟨p, n, by simpa using hp, hget, by simp⟩
  have hnd : (t.iterate).Nodup :=
    List.Nodup.of_map Prod.fst (nodup_fst_random_iterate t hWF [])
  rw [Multiset.coe_count]
  exact List.count_eq_one_of_mem hnd hmem

theorem wt_foldl_increment :
    ∀ (L : List (List Char × ℕ)) (t : NodeTrie) (p : List Char),
      (L.foldl (fun t kw => t.increment kw.1 kw.2) t).wt p =
        t.wt p + (if p = [] then 2 * (L.map (fun kw => kw.2)).sum
          else ((L.filter (fun kw => decide (p <+: kw.1))).map (fun kw => kw.2)).sum) := by
  intro L
  induction L with
  | nil =>
      intro t p
      by_cases hp : p = [] <;> simp [hp]
  | cons kw L' ih =>
      intro t p
      simp only [List.foldl_cons, ih, wt_increment]
      by_cases hp : p = []
      · subst hp
        simp
        omega
      · by_cases hpre : p <+: kw.1
        · simp [hp, hpre, List.filter_cons]
          omega
        · simp [hp, hpre, List.filter_cons]

theorem weight_buildTrie (L : List (List Char × ℕ)) :
    (buildTrie L).weight = 2 * (L.map (fun kw => kw.2)).sum := by
  have h := wt_foldl_increment L NodeTrie.new []
  simpa [buildTrie, NodeTrie.new] using h

theorem wt_buildTrie (L : List (List Char × ℕ)) (p : List Char) (hp : p ≠ []) :
    (buildTrie L).wt p =
      ((L.filter (fun kw => decide (p <+: kw.1))).map (fun kw => kw.2)).sum := by
  have h := wt_foldl_increment L NodeTrie.new p
  simpa [buildTrie, hp] using h

theorem get_foldl_increment_ne_none :
    ∀ (L : List (List Char × ℕ)) (t : NodeTrie) (p : List Char),
      (L.foldl (fun t kw => t.increment kw.1 kw.2) t).get p ≠ none ↔
        (t.get p ≠ none ∨ ∃ kw ∈ L, p <+: kw.1) := by
  intro L
  induction L with
  | nil => intro t p; simp
  | cons kw L' ih =>
      intro t p
      simp only [List.foldl_cons, ih, get_increment_ne_none, List.mem_cons]
      constructor
      · rintro ((h | h) | ⟨kw', hm, hpre⟩)
        · exact Or.inl h
        · exact Or.inr ⟨kw, Or.inl rfl, h⟩
        · exact Or.inr ⟨kw', Or.inr hm, hpre⟩
      · rintro (h | ⟨kw', hm, hpre⟩)
        · exact Or.inl (Or.inl h)
        · rcases hm with rfl | hm
          · exact Or.inl (Or.inr hpre)
          · exact Or.inr ⟨kw', hm, hpre⟩

theorem get_buildTrie_ne_none (L : List (List Char × ℕ)) (p : List Char) :
    (buildTrie L).get p ≠ none ↔ (p = [] ∨ ∃ kw ∈ L, p <+: kw.1) := by
  rw [buildTrie, get_foldl_increment_ne_none, get_new]
  by_cases hp : p = [] <;> simp [hp]

/-! ## Claim C1 -/

/-- C1, counterexample: the claim says `increment` adds the weight exactly
once to the node of every prefix of the key, the empty prefix (root)
included, so that the root weight equals the sum of all increment weights.
In fact a single `increment` of key `"a"` with weight 1 into a fresh trie
leaves the root with weight 2, not 1: `increment_optimized` adds the weight
to the root both before the loop and on the loop's first iteration. -/
theorem claim_C1_counterexample :
    (NodeTrie.new.increment ['a'] 1).weight = 2 ∧
      ¬ (NodeTrie.new.increment ['a'] 1).weight = 1 := by
  decide

/-- C1, amended: `increment` adds the weight exactly once to the node of
every nonempty prefix of the key (the full key included), but adds it twice
to the root; consequently, after any sequence of increments, the root's
weight equals twice the sum of all increment weights. -/
theorem claim_C1_amended :
    (∀ (t : NodeTrie) (k : List Char) (w : ℕ) (p : List Char),
        p ≠ [] → p <+: k → (t.increment k w).wt p = t.wt p + w) ∧
    (∀ (t : NodeTrie) (k : List Char) (w : ℕ) (p : List Char),
        p ≠ [] → ¬ p <+: k → (t.increment k w).wt p = t.wt p) ∧
    (∀ (t : NodeTrie) (k : List Char) (w : ℕ),
        (t.increment k w).weight = t.weight + 2 * w) ∧
    (∀ L : List (List Char × ℕ),
        (buildTrie L).weight = 2 * (L.map (fun kw => kw.2)).sum) := by
  refine ⟨?_, ?_, ?_, weight_buildTrie⟩
  · intro t k w p hp hpre
    rw [wt_increment]
    simp [hp, hpre]
  · intro t k w p hp hpre
    rw [wt_increment]
    simp [hp, hpre]
  · intro t k w
    have h := wt_increment t k w []
    simpa using h

/-- Witness for the amended C1 at a concrete input. -/
theorem claim_C1_witness :
    (['a'] ≠ ([] : List Char)) ∧ (['a'] <+: ['a', 'b']) ∧
      (NodeTrie.new.increment ['a', 'b'] 3).wt ['a'] = NodeTrie.new.wt ['a'] + 3 :=
  ⟨by decide, by decide,
    claim_C1_amended.1 NodeTrie.new ['a', 'b'] 3 ['a'] (by decide) (by decide)⟩

theorem recurFuel_sound (c : ModelDefaults) (oracle : List Char → Char → ℚ) :
    ∀ (fuel : ℕ) (astring : List Char) (prob : ℚ),
      (∀ e ∈ (Guesser.recurFuel c oracle fuel astring prob).1,
          c.lower_probability_threshold ≤ e.2) ∧
      (∀ q ∈ (Guesser.recurFuel c oracle fuel astring prob).2,
          c.lower_probability_threshold ≤ q.2) := by
  intro fuel
  induction fuel with
  | zero =>
      intro astring prob
      simp only [Guesser.recurFuel]
      split_ifs with h1 h2 h3
      · exact ⟨fun e he => by simp at he, fun q hq => by simp at hq⟩
      · refine ⟨fun e he => ?_, fun q hq => by simp at hq⟩
        rw [List.mem_singleton.mp he]
        exact not_lt.mp h1
      · exact ⟨fun e he => by simp at he, fun q hq => by simp at hq⟩
      · exact ⟨fun e he => by simp at he, fun q hq => by simp at hq⟩
  | succ fuel ih =>
      intro astring prob
      simp only [Guesser.recurFuel]
      split_ifs with h1 h2 h3
      · exact ⟨fun e he => by simp at he, fun q hq => by simp at hq⟩
      · refine ⟨fun e he => ?_, fun q hq => by simp at hq⟩
        rw [List.mem_singleton.mp he]
        exact not_lt.mp h1
      · exact ⟨fun e he => by simp at he, fun q hq => by simp at hq⟩
      · constructor
        · intro e he
          simp only [List.map_map, List.mem_flatten, List.mem_map,
            Function.comp] at he
          obtain ⟨l, ⟨ch, hch, rfl⟩, hel⟩ := he
          by_cases hend : ch = PASSWORD_END
          · rw [if_pos hend] at hel
            split_ifs at hel with h4
            · rw [List.mem_singleton.mp hel]
              exact h4
            · simp at hel
          · rw [if_neg hend] at hel
            exact (ih _ _).1 e hel
        · intro q hq
          simp only [List.map_map, List.mem_cons, List.mem_flatten,
            List.mem_map, Function.comp] at hq
          rcases hq with rfl | ⟨l, ⟨ch, hch, rfl⟩, hql⟩
          · exact not_lt.mp h1
          · by_cases hend : ch = PASSWORD_END
            · rw [if_pos hend] at hql
              split_ifs at hql <;> simp at hql
            · rw [if_neg hend] at hql
              exact (ih _ _).2 q hql

/-! ## Claim C2 -/

/-- C2: every `(password, probability)` pair emitted by `Guesser.recur` has
probability at least the configured `lower_probability_threshold`, and the
oracle (`conditional_probs`) is only ever queried at a prefix whose
cumulative probability is at least the threshold. -/
theorem claim_C2 (c : ModelDefaults) (oracle : List Char → Char → ℚ)
    (astring : List Char) (prob : ℚ) :
    (∀ e ∈ (Guesser.recur c oracle astring prob).1,
        c.lower_probability_threshold ≤ e.2) ∧
    (∀ q ∈ (Guesser.recur c oracle astring prob).2,
        c.lower_probability_threshold ≤ q.2) :=
  recurFuel_sound c oracle _ astring prob

/-- Witness for C2: the root query `("", 1)` is made, and the theorem gives
`threshold ≤ 1` for it. -/
theorem claim_C2_witness :
    (([], 1) ∈ (Guesser.recur cfgC2 (fun _ _ => 1) [] 1).2) ∧
      cfgC2.lower_probability_threshold ≤ (1 : ℚ) := by
  have hm : (([], 1) : List Char × ℚ) ∈ (Guesser.recur cfgC2 (fun _ _ => 1) [] 1).2 := by
    norm_num [Guesser.recur, Guesser.recurFuel, cfgC2]
  exact ⟨hm, (claim_C2 cfgC2 (fun _ _ => 1) [] 1).2 ([], 1) hm⟩

/-! ## pstrip facts and Claim C10 -/

theorem dropWhile_end_of_not_mem {l : List Char} (h : PASSWORD_END ∉ l) :
    l.dropWhile (· = PASSWORD_END) = l := by
  cases l with
  | nil => rfl
  | cons c l' =>
      have hc : ¬ (c = PASSWORD_END) := fun hc => h (hc ▸ List.mem_cons_self _ _)
      simp [List.dropWhile_cons, hc]

theorem pstrip_of_not_end {u : List Char} (h : PASSWORD_END ∉ u) : pstrip u = u := by
  rw [pstrip, dropWhile_end_of_not_mem h,
    dropWhile_end_of_not_mem (by simpa using h), List.reverse_reverse]

theorem pstrip_append_end {u : List Char} (h : PASSWORD_END ∉ u) :
    pstrip (u ++ [PASSWORD_END]) = u := by
  cases u with
  | nil => rfl
  | cons c u' =>
      have hc : ¬ (c = PASSWORD_END) := fun hc => h (hc ▸ List.mem_cons_self _ _)
      rw [pstrip]
      rw [show ((c :: u') ++ [PASSWORD_END]).dropWhile (· = PASSWORD_END) =
        (c :: u') ++ [PASSWORD_END] from by simp [List.dropWhile_cons, hc]]
      rw [show ((c :: u') ++ [PASSWORD_END]).reverse =
        PASSWORD_END :: (c :: u').reverse from by simp]
      rw [show (PASSWORD_END :: (c :: u').reverse).dropWhile (· = PASSWORD_END) =
        (c :: u').reverse.dropWhile (· = PASSWORD_END) from by simp [List.dropWhile_cons]]
      rw [dropWhile_end_of_not_mem (fun hmem => h (List.mem_reverse.mp hmem)),
        List.reverse_reverse]

/-- Every password emitted by the search from an end-marker-free prefix is an
end-marker-free string, possibly with a single end marker appended. -/
theorem recurFuel_emission_shape (c : ModelDefaults) (oracle : List Char → Char → ℚ) :
    ∀ (fuel : ℕ) (astring : List Char) (prob : ℚ), PASSWORD_END ∉ astring →
      ∀ e ∈ (Guesser.recurFuel c oracle fuel astring prob).1,
        ∃ u : List Char, PASSWORD_END ∉ u ∧
          (e.1 = u ∨ e.1 = u ++ [PASSWORD_END]) := by
  intro fuel
  induction fuel with
  | zero =>
      intro astring prob hna e he
      simp only [Guesser.recurFuel] at he
      split_ifs at he with h1 h2 h3
      · simp at he
      · rw [List.mem_singleton.mp he]
        exact ⟨astring, hna, Or.inl rfl⟩
      · simp at he
      · simp at he
  | succ fuel ih =>
      intro astring prob hna e he
      simp only [Guesser.recurFuel] at he
      split_ifs at he with h1 h2 h3
      · simp at he
      · rw [List.mem_singleton.mp he]
        exact ⟨astring, hna, Or.inl rfl⟩
      · simp at he
      · simp only [List.map_map, List.mem_flatten, List.mem_map,
          Function.comp] at he
        obtain ⟨l, ⟨ch, hch, rfl⟩, hel⟩ := he
        by_cases hend : ch = PASSWORD_END
        · rw [if_pos hend] at hel
          split_ifs at hel with h4
          · rw [List.mem_singleton.mp hel]
            exact ⟨astring, hna, Or.inr (by rw [hend])⟩
          · simp at hel
        · rw [if_neg hend] at hel
          have hna' : PASSWORD_END ∉ astring ++ [ch] := by
            simp only [List.mem_append, List.mem_singleton]
            rintro (h | h)
            · exact hna h
            · exact hend h.symm
          exact ih _ _ hna' e hel

/-- C10: for every pair emitted by the search engine (started from an
end-marker-free prefix, as `guess`/the workers do), `GuessSerializer.serialize`
writes the password with all leading and trailing end markers stripped,
followed by a tab, the rendered probability, and a newline; and the stripped
password field contains no end-marker character. -/
theorem claim_C10 (c : ModelDefaults) (oracle : List Char → Char → ℚ)
    (render : ℚ → List Char) (astring : List Char) (prob : ℚ)
    (hstart : PASSWORD_END ∉ astring) :
    ∀ e ∈ (Guesser.recur c oracle astring prob).1,
      GuessSerializer.serialize render e.1 e.2 =
        pstrip e.1 ++ ['\t'] ++ render e.2 ++ ['\n'] ∧
      PASSWORD_END ∉ pstrip e.1 := by
  intro e he
  refine ⟨rfl, ?_⟩
  obtain ⟨u, hu, hcase | hcase⟩ :=
    recurFuel_emission_shape c oracle _ astring prob hstart e he
  · rw [hcase, pstrip_of_not_end hu]
    exact hu
  · rw [hcase, pstrip_append_end hu]
    exact hu

/-- Witness for C10: the concrete emission `("\n", 1)` of a tiny search. -/
theorem claim_C10_witness :
    (PASSWORD_END ∉ ([] : List Char)) ∧
      ((['\n'], 1) ∈ (Guesser.recur cfgC10 (fun _ _ => 1) [] 1).1) ∧
      (GuessSerializer.serialize (fun _ => ['1']) ['\n'] 1 =
          pstrip ['\n'] ++ ['\t'] ++ ['1'] ++ ['\n'] ∧
        PASSWORD_END ∉ pstrip ['\n']) := by
  have h0 : PASSWORD_END ∉ ([] : List Char) := by simp
  have hm : ((['\n'], 1) : List Char × ℚ) ∈
      (Guesser.recur cfgC10 (fun _ _ => 1) [] 1).1 := by
    norm_num [Guesser.recur, Guesser.recurFuel, cfgC10, CharacterTable.chars,
      PASSWORD_END, List.insertionSort, List.orderedInsert, pstrip,
      (by decide : ('a' : Char) ≠ '\n'), (by decide : ¬ ('a' : Char) ≤ '\n')]
  exact ⟨h0, hm, claim_C10 cfgC10 (fun _ _ => 1) (fun _ => ['1']) [] 1 h0 (['\n'], 1) hm⟩

/-! ## Releveling theory and Claim C7 -/

theorem sum_map_div (l : List ℚ) (s : ℚ) : (l.map (fun v => v / s)).sum = l.sum / s := by
  induction l with
  | nil => simp
  | cons x xs ih =>
      simp only [List.map_cons, List.sum_cons, ih]
      ring

theorem length_foldl_set (v : Char → ℚ) (idx : Char → ℕ) :
    ∀ (l : List Char) (acc : List ℚ),
      (l.foldl (fun ps ch => ps.set (idx ch) (v ch)) acc).length = acc.length := by
  intro l
  induction l with
  | nil => intro acc; rfl
  | cons ch l' ih =>
      intro acc
      simp [List.foldl_cons, ih]

theorem foldl_set_getElem? (chars : List Char) (hnd : chars.Nodup) (v : Char → ℚ) :
    ∀ (l : List Char), l.Sublist chars → ∀ (acc : List ℚ),
      acc.length = chars.length →
      ∀ (j : ℕ) (hj : j < chars.length),
        (l.foldl (fun ps ch => ps.set (chars.indexOf ch) (v ch)) acc)[j]? =
          if chars[j] ∈ l then some (v chars[j]) else acc[j]? := by
  intro l
  induction l with
  | nil =>
      intro _ acc _ j hj
      simp
  | cons ch0 l' ih =>
      intro hsub acc hlen j hj
      have hch0 : ch0 ∈ chars := hsub.subset (List.mem_cons_self _ _)
      have hsub' : l'.Sublist chars := (List.sublist_cons_self ch0 l').trans hsub
      have hidx : chars.indexOf ch0 < chars.length := List.indexOf_lt_length.mpr hch0
      have hlen' : (acc.set (chars.indexOf ch0) (v ch0)).length = chars.length := by
        simpa using hlen
      rw [List.foldl_cons, ih hsub' _ hlen' j hj]
      by_cases hm : chars[j] ∈ l'
      · simp [hm]
      · have hget : chars[chars.indexOf ch0] = ch0 := by
          have h := List.indexOf_get hidx
          rwa [List.get_eq_getElem] at h
        by_cases heq : chars.indexOf ch0 = j
        · subst heq
          have hmem : chars[chars.indexOf ch0] ∈ ch0 :: l' := by
            rw [hget]
            exact List.mem_cons_self _ _
          rw [if_neg hm, if_pos hmem, hget,
            List.getElem?_set_eq_of_lt (v ch0) (by omega)]
        · have hne : chars[j] ∉ ch0 :: l' := by
            intro hmem
            rcases List.mem_cons.mp hmem with h1 | h1
            · apply heq
              have h2 := List.get_indexOf hnd ⟨j, hj⟩
              simp only [List.get_eq_getElem] at h2
              rw [h1] at h2
              exact h2
            · exact hm h1
          rw [if_neg hm, if_neg hne, List.getElem?_set_ne heq]

theorem foldl_set_eq_map (chars : List Char) (hnd : chars.Nodup) (v : Char → ℚ)
    (acc : List ℚ) (hlen : acc.length = chars.length) :
    chars.foldl (fun ps ch => ps.set (chars.indexOf ch) (v ch)) acc = chars.map v := by
  apply List.ext_getElem?
  intro j
  by_cases hj : j < chars.length
  · rw [foldl_set_getElem? chars hnd v chars (List.Sublist.refl _) acc hlen j hj]
    simp [hj]
  · have h1 : (chars.foldl (fun ps ch => ps.set (chars.indexOf ch) (v ch)) acc).length ≤ j := by
      rw [length_foldl_set, hlen]
      omega
    have h2 : (chars.map v).length ≤ j := by
      simp only [List.length_map]
      omega
    rw [List.getElem?_eq_none h1, List.getElem?_eq_none h2]

theorem sum_onehot (chars : List Char) (hnd : chars.Nodup) (hm : PASSWORD_END ∈ chars) :
    (chars.map (fun ch => if ch = PASSWORD_END then (1 : ℚ) else 0)).sum = 1 := by
  induction chars with
  | nil => cases hm
  | cons c cs ih =>
      simp only [List.nodup_cons] at hnd
      by_cases hc : c = PASSWORD_END
      · subst hc
        have hzero : ((cs.map (fun ch => if ch = PASSWORD_END then (1 : ℚ) else 0))).sum = 0 := by
          apply List.sum_eq_zero
          intro x hx
          obtain ⟨ch, hch, rfl⟩ := List.mem_map.mp hx
          have hne : ch ≠ PASSWORD_END := fun h => hnd.1 (h ▸ hch)
          simp [hne]
        simp [hzero]
      · have h1 : PASSWORD_END ∈ cs := by
          rcases List.mem_cons.mp hm with h1 | h1
          · exact absurd h1.symm hc
          · exact h1
        simp [hc, ih hnd.2 h1]

theorem nodup_chars (c : ModelDefaults) : (CharacterTable.chars c).Nodup := by
  rw [CharacterTable.chars]
  exact (List.perm_insertionSort (· ≤ ·) c.char_bag.dedup).symm.nodup
    c.char_bag.nodup_dedup

theorem mem_chars (c : ModelDefaults) (ch : Char) :
    ch ∈ CharacterTable.chars c ↔ ch ∈ c.char_bag := by
  rw [CharacterTable.chars]
  rw [(List.perm_insertionSort (· ≤ ·) c.char_bag.dedup).mem_iff]
  exact List.mem_dedup

/-- C7, counterexample: for the all-zero prediction vector and a valid
prefix, `relevel_prediction` divides by a zero sum and the result does not
sum to 1 (the claim asserts the result sums to 1 in all cases). -/
theorem claim_C7_counterexample :
    Guesser.relevel_prediction ⟨['a', PASSWORD_END], 3, 1, 0, 2, "reg", false, none, -1, 1000⟩
        [0, 0] ['a'] = [0, 0] ∧
      ¬ (Guesser.relevel_prediction
          ⟨['a', PASSWORD_END], 3, 1, 0, 2, "reg", false, none, -1, 1000⟩
          [0, 0] ['a']).sum = 1 := by
  have h : Guesser.relevel_prediction
      ⟨['a', PASSWORD_END], 3, 1, 0, 2, "reg", false, none, -1, 1000⟩
      [0, 0] ['a'] = [0, 0] := by
    norm_num [Guesser.relevel_prediction, Filterer.pwd_is_valid, pstrip,
      PASSWORD_END, (by decide : ('a' : Char) ≠ '\n')]
  rw [h]
  norm_num

/-- C7, amended: with a prediction vector of matching length and the end
marker in the alphabet, (i) an invalid trimmed prefix forces the end
marker's entry to 0 (this branch takes precedence even at maximum length);
(ii) a valid prefix at maximum length yields exactly the one-hot end-marker
distribution; (iii) the result sums to 1 whenever the entries after the
forcing step have a nonzero sum (for an all-zero vector the division is by
zero and the result does not sum to 1). -/
theorem claim_C7_amended (c : ModelDefaults) (preds : List ℚ) (astring : List Char)
    (hlen : preds.length = (CharacterTable.chars c).length)
    (hend : PASSWORD_END ∈ c.char_bag) :
    (¬ Filterer.pwd_is_valid c astring = true →
      (Guesser.relevel_prediction c preds astring)[CharacterTable.get_char_index c
          PASSWORD_END]? = some 0) ∧
    (Filterer.pwd_is_valid c astring = true → astring.length = c.max_len →
      Guesser.relevel_prediction c preds astring =
        (CharacterTable.chars c).map (fun ch => if ch = PASSWORD_END then 1 else 0)) ∧
    (¬ Filterer.pwd_is_valid c astring = true →
      (preds.set (CharacterTable.get_char_index c PASSWORD_END) 0).sum ≠ 0 →
      (Guesser.relevel_prediction c preds astring).sum = 1) ∧
    (Filterer.pwd_is_valid c astring = true → ¬ astring.length = c.max_len →
      preds.sum ≠ 0 → (Guesser.relevel_prediction c preds astring).sum = 1) := by
  have hendc : PASSWORD_END ∈ CharacterTable.chars c := (mem_chars c _).mpr hend
  have hidx : CharacterTable.get_char_index c PASSWORD_END <
      (CharacterTable.chars c).length :=
    List.indexOf_lt_length.mpr hendc
  refine ⟨?_, ?_, ?_, ?_⟩
  · intro hinvalid
    simp only [Guesser.relevel_prediction, if_pos hinvalid]
    rw [List.getElem?_map,
      List.getElem?_set_eq_of_lt 0 (by omega :
        CharacterTable.get_char_index c PASSWORD_END < preds.length)]
    simp
  · intro hvalid hmax
    simp only [Guesser.relevel_prediction, CharacterTable.get_char_index]
    rw [if_neg (not_not_intro hvalid), if_pos hmax]
    rw [foldl_set_eq_map _ (nodup_chars c) _ preds hlen]
    have hsum : ((CharacterTable.chars c).map
        (fun ch => if ch = PASSWORD_END then (1 : ℚ) else 0)).sum = 1 :=
      sum_onehot _ (nodup_chars c) hendc
    simp only [hsum, div_one]
    simp
  · intro hinvalid hsum
    simp only [Guesser.relevel_prediction, if_pos hinvalid]
    rw [sum_map_div]
    exact div_self hsum
  · intro hvalid hmax hsum
    simp only [Guesser.relevel_prediction]
    rw [if_neg (not_not_intro hvalid), if_neg hmax]
    rw [sum_map_div]
    exact div_self hsum

/-- Witness for the amended C7 at a concrete input (invalid prefix: `'b'` is
outside the alphabet). -/
theorem claim_C7_witness :
    ([(1 : ℚ), 1].length =
        (CharacterTable.chars ⟨['a', PASSWORD_END], 3, 1, 0, 2, "reg", false, none,
          -1, 1000⟩).length) ∧
    (PASSWORD_END ∈ ['a', PASSWORD_END]) ∧
    (¬ Filterer.pwd_is_valid
        ⟨['a', PASSWORD_END], 3, 1, 0, 2, "reg", false, none, -1, 1000⟩ ['b'] = true) ∧
    (Guesser.relevel_prediction
        ⟨['a', PASSWORD_END], 3, 1, 0, 2, "reg", false, none, -1, 1000⟩
        [(1 : ℚ), 1] ['b'])[CharacterTable.get_char_index
          ⟨['a', PASSWORD_END], 3, 1, 0, 2, "reg", false, none, -1, 1000⟩
          PASSWORD_END]? = some 0 := by
  have h1 : [(1 : ℚ), 1].length =
      (CharacterTable.chars ⟨['a', PASSWORD_END], 3, 1, 0, 2, "reg", false, none,
        -1, 1000⟩).length := by decide
  have h2 : PASSWORD_END ∈ ['a', PASSWORD_END] := by decide
  have h3 : ¬ Filterer.pwd_is_valid
      ⟨['a', PASSWORD_END], 3, 1, 0, 2, "reg", false, none, -1, 1000⟩ ['b'] = true := by
    decide
  exact ⟨h1, h2, h3,
    (claim_C7_amended _ [(1 : ℚ), 1] ['b'] h1 h2).1 h3⟩

/-- C8, counterexample: `ModelDefaults.validate` never inspects
`lower_probability_threshold`; a configuration with threshold `0 ≤ 0` (and
otherwise default-like fields) passes validation, so threshold ≤ 0 is not
rejected at startup. -/
theorem claim_C8_counterexample :
    (ModelDefaults.lower_probability_threshold
        ⟨[], 40, 4, 0, 2, "reg", false, none, -1, 1000⟩ ≤ 0) ∧
      ModelDefaults.validate ⟨[], 40, 4, 0, 2, "reg", false, none, -1, 1000⟩ = true := by
  constructor
  · norm_num
  · rfl

/-- C8, amended: validation does reject every configuration whose fork
length reaches the minimum password length, but it performs no check at all
on the probability threshold (validation is invariant under changing it). -/
theorem claim_C8_amended :
    (∀ c : ModelDefaults, c.min_len ≤ c.fork_length → c.validate = false) ∧
    (∀ (c : ModelDefaults) (q : ℚ), (setThreshold c q).validate = c.validate) := by
  constructor
  · intro c h
    rw [ModelDefaults.validate]
    rw [decide_eq_false (by omega : ¬ c.fork_length < c.min_len)]
    simp
  · intro c q
    rfl

/-- Witness for the amended C8 at a concrete configuration
(fork length 5 ≥ min length 4). -/
theorem claim_C8_witness :
    ((4 : ℕ) ≤ 5) ∧
      ModelDefaults.validate ⟨[], 40, 4, 1, 5, "reg", false, none, -1, 1000⟩ = false :=
  ⟨by decide,
    claim_C8_amended.1 ⟨[], 40, 4, 1, 5, "reg", false, none, -1, 1000⟩ (by decide)⟩

theorem perm_rotate {α : Type} (y z w : List α) :
    (y ++ (z ++ w)).Perm (z ++ (y ++ w)) := by
  rw [← List.append_assoc, ← List.append_assoc]
  exact List.perm_append_comm.append_right w

theorem flatten_perm_helper {α : Type} (worker : List Char × ℚ → List α)
    (A B : Char → List α) (F : Char → List (List Char × ℚ)) :
    ∀ cs : List Char,
      (∀ ch ∈ cs, (A ch).Perm (B ch ++ (((F ch).map worker).flatten))) →
      ((cs.map A).flatten).Perm
        ((cs.map B).flatten ++ ((((cs.map F).flatten).map worker).flatten)) := by
  intro cs
  induction cs with
  | nil => intro _; simp
  | cons c0 cs' ih =>
      intro h
      have h0 := h c0 (List.mem_cons_self _ _)
      have h' := ih (fun ch hch => h ch (List.mem_cons_of_mem _ hch))
      simp only [List.map_cons, List.flatten_cons, List.map_append,
        List.flatten_append, List.append_assoc]
      refine (h0.append h').trans ?_
      simp only [List.append_assoc]
      exact (perm_rotate _ _ _).append_left (B c0)

/-- Sequential/parallel agreement: started anywhere with the exact depth
bound, the sequential emissions are a permutation of the root-phase
emissions followed by the workers' emissions at the collected fork points. -/
theorem recur_precur_perm (c : ModelDefaults) (oracle : List Char → Char → ℚ) :
    ∀ (fuel : ℕ) (astring : List Char) (prob : ℚ),
      fuel = c.max_len + 1 - astring.length →
      (Guesser.recurFuel c oracle fuel astring prob).1.Perm
        ((ParallelGuesser.recurFuel c oracle fuel astring prob).1 ++
          (((ParallelGuesser.recurFuel c oracle fuel astring prob).2.map
            (fun node => (Guesser.recur c oracle node.1 node.2).1)).flatten)) := by
  intro fuel
  induction fuel with
  | zero =>
      intro astring prob hfuel
      by_cases hfork : astring.length = c.fork_length
      · simp only [ParallelGuesser.recurFuel, if_pos hfork, List.map_cons,
          List.map_nil, List.flatten_cons, List.flatten_nil, List.nil_append,
          List.append_nil]
        rw [Guesser.recur, ← hfuel]
      · simp only [ParallelGuesser.recurFuel, Guesser.recurFuel, if_neg hfork]
        split_ifs with h1 h2 h3 <;> simp
  | succ fuel ih =>
      intro astring prob hfuel
      by_cases hfork : astring.length = c.fork_length
      · simp only [ParallelGuesser.recurFuel, if_pos hfork, List.map_cons,
          List.map_nil, List.flatten_cons, List.flatten_nil, List.nil_append,
          List.append_nil]
        rw [Guesser.recur, ← hfuel]
      · simp only [ParallelGuesser.recurFuel, Guesser.recurFuel, if_neg hfork]
        split_ifs with h1 h2 h3
        · simp
        · simp
        · simp
        · simp only [List.map_map, Function.comp]
          refine flatten_perm_helper
            (fun node => (Guesser.recur c oracle node.1 node.2).1)
            (fun ch => (if ch = PASSWORD_END then
                (if c.lower_probability_threshold ≤ oracle astring ch * prob then
                  ([(astring ++ [ch], oracle astring ch * prob)],
                    ([] : List (List Char × ℚ)))
                 else ([], []))
              else
                Guesser.recurFuel c oracle fuel (astring ++ [ch])
                  (oracle astring ch * prob)).1)
            (fun ch => (if ch = PASSWORD_END then
                (if c.lower_probability_threshold ≤ oracle astring ch * prob then
                  ([(astring ++ [ch], oracle astring ch * prob)],
                    ([] : List (List Char × ℚ)))
                 else ([], []))
              else
                ParallelGuesser.recurFuel c oracle fuel (astring ++ [ch])
                  (oracle astring ch * prob)).1)
            (fun ch => (if ch = PASSWORD_END then
                (if c.lower_probability_threshold ≤ oracle astring ch * prob then
                  ([(astring ++ [ch], oracle astring ch * prob)],
                    ([] : List (List Char × ℚ)))
                 else ([], []))
              else
                ParallelGuesser.recurFuel c oracle fuel (astring ++ [ch])
                  (oracle astring ch * prob)).2)
            (CharacterTable.chars c) ?_
          intro ch hch
          by_cases hend : ch = PASSWORD_END
          · simp only [hend]
            split_ifs with h4 <;> simp
          · simp only [if_neg hend]
            have hfuel' : fuel = c.max_len + 1 - (astring ++ [ch]).length := by
              simp only [List.length_append, List.length_singleton]
              omega
            exact ih (astring ++ [ch]) (oracle astring ch * prob) hfuel'

/-- C9: with every worker succeeding, the final merged output is exactly the
root worker's own emissions followed by each forked worker's emissions in
fork-point discovery order; and it is a permutation of the single-process
`Guesser.recur('', 1)` emission stream, so no line is duplicated or
dropped. -/
theorem claim_C9 (c : ModelDefaults) (oracle : List Char → Char → ℚ) :
    (ParallelGuesser.guess_output c oracle =
      (ParallelGuesser.recur c oracle [] 1).1 ++
        (((ParallelGuesser.recur c oracle [] 1).2.map
          (fun node => (Guesser.recur c oracle node.1 node.2).1)).flatten)) ∧
    (ParallelGuesser.guess_output c oracle).Perm (Guesser.recur c oracle [] 1).1 := by
  constructor
  · simp [ParallelGuesser.guess_output, ParallelGuesser.collect_answer]
  · have h := recur_precur_perm c oracle
      (c.max_len + 1 - ([] : List Char).length) [] 1 rfl
    have e1 : ParallelGuesser.guess_output c oracle =
        (ParallelGuesser.recurFuel c oracle
            (c.max_len + 1 - ([] : List Char).length) [] 1).1 ++
          (((ParallelGuesser.recurFuel c oracle
              (c.max_len + 1 - ([] : List Char).length) [] 1).2.map
            (fun node => (Guesser.recur c oracle node.1 node.2).1)).flatten) := by
      simp [ParallelGuesser.guess_output, ParallelGuesser.collect_answer,
        ParallelGuesser.recur]
    rw [e1, Guesser.recur]
    exact h.symm

/-! ### Serializer theory: write side -/

theorem length_encode64 (n : ℕ) : (encode64 n).length = 8 := rfl

theorem leNat_encode64 {n : ℕ} (h : n < 2 ^ 64) : leNat (encode64 n) = n := by
  simp only [encode64, leNat]
  omega

theorem length_recordBytes (enc : List Char → List ℕ) (e : List Char × ℕ) :
    (recordBytes enc e).length = 1 + (enc e.1).length + 8 := by
  simp [recordBytes, length_encode64]
  omega

theorem catBytes_nil (enc : List Char → List ℕ) : catBytes enc [] = [] := rfl

theorem catBytes_cons (enc : List Char → List ℕ) (e : List Char × ℕ)
    (es : List (List Char × ℕ)) :
    catBytes enc (e :: es) = recordBytes enc e ++ catBytes enc es := by
  simp [catBytes]

theorem catBytes_append (enc : List Char → List ℕ) (es₁ es₂ : List (List Char × ℕ)) :
    catBytes enc (es₁ ++ es₂) = catBytes enc es₁ ++ catBytes enc es₂ := by
  simp [catBytes]

theorem catBytes_singleton (enc : List Char → List ℕ) (e : List Char × ℕ) :
    catBytes enc [e] = recordBytes enc e := by
  simp [catBytes]

theorem fread_at (pre rest : List ℕ) (k : ℕ) :
    fread (pre ++ rest) pre.length k = rest.take k := by
  simp [fread]

theorem fread_at_end (pre : List ℕ) (k : ℕ) : fread pre pre.length k = [] := by
  simp [fread]

theorem write_record_ok (enc : List Char → List ℕ) (e : List Char × ℕ)
    (h1 : (enc e.1).length ≤ 255) (h2 : e.2 < 2 ^ 64) :
    BinaryTrieSerializer.write_record enc e.1 e.2 = .ok (recordBytes enc e) := by
  rw [BinaryTrieSerializer.write_record, BinaryTrieSerializer.write_string]
  simp only [if_pos h1]
  rw [NodeTrieSerializer.write_value]
  simp only [if_pos h2]
  rfl

theorem except_bind_ok {α β : Type} (a : α) (f : α → Except Unit β) :
    (Except.ok a : Except Unit α) >>= f = f a := rfl

theorem serializeLoop_ok (enc : List Char → List ℕ) {chunk : ℕ} (hchunk : 0 < chunk) :
    ∀ (es : List (List Char × ℕ)) (records pos : ℕ),
      (∀ e ∈ es, (enc e.1).length ≤ 255 ∧ e.2 < 2 ^ 64) →
      serializeLoop enc chunk es records pos =
        .ok (catBytes enc es, tocOf enc chunk es records pos) := by
  intro es
  induction es with
  | nil => intro records pos _; rfl
  | cons e es' ih =>
      intro records pos hgood
      have hge := hgood e (List.mem_cons_self _ _)
      have hc : ¬ chunk = 0 := by omega
      rw [serializeLoop, write_record_ok enc e hge.1 hge.2]
      rw [except_bind_ok]
      simp only [if_neg hc]
      rw [ih (records + 1) (pos + (recordBytes enc e).length)
        (fun x hx => hgood x (List.mem_cons_of_mem _ hx))]
      rw [except_bind_ok]
      rw [catBytes_cons, tocOf]

theorem tocOf_keys_gt (enc : List Char → List ℕ) (chunk : ℕ) :
    ∀ (es : List (List Char × ℕ)) (records pos : ℕ),
      ∀ kv ∈ tocOf enc chunk es records pos, records < kv.1 := by
  intro es
  induction es with
  | nil => intro records pos kv h; cases h
  | cons e es' ih =>
      intro records pos kv h
      rw [tocOf] at h
      rcases List.mem_append.mp h with h1 | h1
      · split_ifs at h1 with hc
        · rw [List.mem_singleton.mp h1]
          omega
        · cases h1
      · have := ih (records + 1) _ kv h1
        omega

theorem tocOf_pairwise_lt (enc : List Char → List ℕ) (chunk : ℕ) :
    ∀ (es : List (List Char × ℕ)) (records pos : ℕ),
      (tocOf enc chunk es records pos).Pairwise (fun a b => a.1 < b.1) := by
  intro es
  induction es with
  | nil => intro records pos; exact List.Pairwise.nil
  | cons e es' ih =>
      intro records pos
      rw [tocOf]
      rw [List.pairwise_append]
      refine ⟨?_, ih _ _, ?_⟩
      · split_ifs <;> simp
      · intro a ha b hb
        have hb' := tocOf_keys_gt enc chunk es' (records + 1) _ b hb
        split_ifs at ha with hc
        · rw [List.mem_singleton.mp ha]
          omega
        · cases ha

theorem tocOf_sorted (enc : List Char → List ℕ) (chunk : ℕ)
    (es : List (List Char × ℕ)) (records pos : ℕ) :
    (tocOf enc chunk es records pos).Sorted (fun a b => a.1 ≤ b.1) :=
  (tocOf_pairwise_lt enc chunk es records pos).imp (fun h => le_of_lt h)

theorem tocOf_nodup_fst (enc : List Char → List ℕ) (chunk : ℕ)
    (es : List (List Char × ℕ)) (records pos : ℕ) :
    ((tocOf enc chunk es records pos).map Prod.fst).Nodup := by
  have h := tocOf_pairwise_lt enc chunk es records pos
  have h2 : ((tocOf enc chunk es records pos).map Prod.fst).Pairwise (· ≠ ·) := by
    rw [List.pairwise_map]
    exact h.imp (fun hlt => Nat.ne_of_lt hlt)
  exact h2

theorem do_serialize_ok (enc : List Char → List ℕ) {chunk : ℕ} (hchunk : 0 < chunk)
    (t : NodeTrie)
    (hgood : ∀ e ∈ t.iterate, (enc e.1).length ≤ 255 ∧ e.2 < 2 ^ 64)
    (hn : t.iterate.length < 2 ^ 64)
    (hts : 16 + (catBytes enc t.iterate).length < 2 ^ 64) :
    BinaryTrieSerializer.do_serialize enc chunk t =
      .ok (encode64 t.iterate.length ++
        encode64 (16 + (catBytes enc t.iterate).length) ++ catBytes enc t.iterate ++
        ((tocOf enc chunk t.iterate 0 16).map
          (fun kv => encode64 kv.1 ++ encode64 kv.2)).flatten) := by
  rw [BinaryTrieSerializer.do_serialize, serializeLoop_ok enc hchunk _ _ _ hgood]
  rw [except_bind_ok]
  simp only [if_pos (And.intro hn hts)]
  rw [List.Sorted.insertionSort_eq (tocOf_sorted enc chunk _ 0 16)]

theorem tocOf_peel (enc : List Char → List ℕ) (chunk : ℕ) :
    ∀ (es : List (List Char × ℕ)) (records pos k₁ o₁ : ℕ) (toc' : List (ℕ × ℕ)),
      tocOf enc chunk es records pos = (k₁, o₁) :: toc' →
      ∃ es₁ es₂, es = es₁ ++ es₂ ∧ es₁ ≠ [] ∧
        o₁ = pos + (catBytes enc es₁).length ∧
        toc' = tocOf enc chunk es₂ (records + es₁.length) o₁ := by
  intro es
  induction es with
  | nil => intro records pos k₁ o₁ toc' h; cases h
  | cons e es' ih =>
      intro records pos k₁ o₁ toc' h
      rw [tocOf] at h
      split_ifs at h with hc
      · simp only [List.cons_append, List.nil_append, List.cons.injEq,
          Prod.mk.injEq] at h
        refine ⟨[e], es', by simp, by simp, ?_, ?_⟩
        · rw [catBytes_singleton]
          exact h.1.2.symm
        · rw [h.2.symm]
          simp only [List.length_singleton]
          rw [h.1.2]
      · simp only [List.nil_append] at h
        obtain ⟨es₁, es₂, heq, hne, ho, htoc⟩ := ih (records + 1) _ k₁ o₁ toc' h
        refine ⟨e :: es₁, es₂, by rw [heq]; simp, by simp, ?_, ?_⟩
        · rw [catBytes_cons, ho]
          simp only [List.length_append]
          omega
        · rw [htoc]
          simp only [List.length_cons]
          congr 1
          omega

/-! ### Serializer theory: read side -/

theorem read_record_at_eof (dec : List ℕ → List Char) (pre : List ℕ) :
    BinaryTrieSerializer.read_record dec pre pre.length = .ok none := by
  rw [BinaryTrieSerializer.read_record, BinaryTrieSerializer.read_string,
    fread_at_end]

theorem read_string_at (dec : List ℕ → List Char) (enc : List Char → List ℕ)
    (e : List Char × ℕ) (pre suf : List ℕ) :
    BinaryTrieSerializer.read_string dec (pre ++ recordBytes enc e ++ suf)
        pre.length =
      some (dec (enc e.1), pre.length + 1 + (enc e.1).length) := by
  have h1 : fread (pre ++ recordBytes enc e ++ suf) pre.length 1 =
      [(enc e.1).length] := by
    rw [fread, List.append_assoc, List.drop_left, recordBytes]
    rfl
  have h2 : fread (pre ++ recordBytes enc e ++ suf) (pre.length + 1)
      (enc e.1).length = enc e.1 := by
    have hsplit : pre ++ recordBytes enc e ++ suf =
        (pre ++ [(enc e.1).length]) ++ (enc e.1 ++ (encode64 e.2 ++ suf)) := by
      rw [recordBytes]
      simp
    have hlen : pre.length + 1 = (pre ++ [(enc e.1).length]).length := by
      simp
    rw [fread, hsplit, hlen, List.drop_left, List.take_left]
  rw [BinaryTrieSerializer.read_string, h1]
  simp only [h2]

theorem read_value_at (e2 : ℕ) (pre suf : List ℕ) (h : e2 < 2 ^ 64) :
    NodeTrieSerializer.read_value (pre ++ encode64 e2 ++ suf) pre.length =
      .ok (e2, pre.length + 8) := by
  rw [NodeTrieSerializer.read_value]
  have h1 : fread (pre ++ encode64 e2 ++ suf) pre.length 8 = encode64 e2 := by
    rw [fread, List.append_assoc, List.drop_left]
    rw [show (8 : ℕ) = (encode64 e2).length from (length_encode64 e2).symm]
    rw [List.take_left]
  rw [h1]
  simp only [length_encode64]
  rw [if_neg (by omega)]
  rw [leNat_encode64 h]

theorem read_record_eq_of_read_string (dec : List ℕ → List Char) (file : List ℕ)
    (pos : ℕ) (s : List Char) (pos1 : ℕ)
    (h : BinaryTrieSerializer.read_string dec file pos = some (s, pos1)) :
    BinaryTrieSerializer.read_record dec file pos =
      match NodeTrieSerializer.read_value file pos1 with
      | .error _ => .error ()
      | .ok (v, pos2) => .ok (some ((s, v), pos2)) := by
  rw [BinaryTrieSerializer.read_record, h]

theorem read_record_at (dec : List ℕ → List Char) (enc : List Char → List ℕ)
    (e : List Char × ℕ) (pre suf : List ℕ)
    (h2 : e.2 < 2 ^ 64) (hdec : dec (enc e.1) = e.1) :
    BinaryTrieSerializer.read_record dec (pre ++ recordBytes enc e ++ suf)
        pre.length =
      .ok (some (e, pre.length + (recordBytes enc e).length)) := by
  rw [read_record_eq_of_read_string dec _ _ _ _ (read_string_at dec enc e pre suf)]
  have hsplit : pre ++ recordBytes enc e ++ suf =
      (pre ++ ((enc e.1).length :: enc e.1)) ++ encode64 e.2 ++ suf := by
    rw [recordBytes]
    simp
  have hlen : pre.length + 1 + (enc e.1).length =
      (pre ++ ((enc e.1).length :: enc e.1)).length := by
    simp
    omega
  rw [hsplit, hlen, read_value_at e.2 _ suf h2]
  simp only [hdec, Prod.mk.eta]
  simp [length_recordBytes]
  omega

theorem deserializeLoop_step (dec : List ℕ → List Char) (file : List ℕ)
    (c pos : ℕ) (e : List Char × ℕ) (pos' : ℕ)
    (h : BinaryTrieSerializer.read_record dec file pos = .ok (some (e, pos'))) :
    deserializeLoop dec file (c + 1) pos =
      (deserializeLoop dec file c pos') >>= fun rest => .ok (e :: rest) := by
  rw [deserializeLoop, h]

theorem deserializeLoop_at (dec : List ℕ → List Char) (enc : List Char → List ℕ) :
    ∀ (es : List (List Char × ℕ)) (count : ℕ) (pre suf : List ℕ),
      (∀ e ∈ es, e.2 < 2 ^ 64 ∧ dec (enc e.1) = e.1) →
      (count = es.length ∨ (es.length ≤ count ∧ suf = [])) →
      deserializeLoop dec (pre ++ catBytes enc es ++ suf) count pre.length =
        .ok es := by
  intro es
  induction es with
  | nil =>
      intro count pre suf _ hcount
      rcases hcount with h | ⟨_, rfl⟩
      · subst h
        rfl
      · cases count with
        | zero => rfl
        | succ c =>
            rw [deserializeLoop]
            rw [show pre ++ catBytes enc [] ++ [] = pre from by simp [catBytes]]
            rw [read_record_at_eof]
  | cons e es' ih =>
      intro count pre suf hgood hcount
      have hc : ∃ c', count = c' + 1 ∧
          (c' = es'.length ∨ (es'.length ≤ c' ∧ suf = [])) := by
        rcases hcount with h | ⟨hle, hsuf⟩
        · exact ⟨es'.length, by simp [h], Or.inl rfl⟩
        · refine ⟨count - 1, by simp at hle ⊢; omega,
            Or.inr ⟨by simp at hle ⊢; omega, hsuf⟩⟩
      obtain ⟨c', rfl, hc'⟩ := hc
      have hge := hgood e (List.mem_cons_self _ _)
      have hassoc : pre ++ catBytes enc (e :: es') ++ suf =
          pre ++ recordBytes enc e ++ (catBytes enc es' ++ suf) := by
        rw [catBytes_cons]
        simp
      rw [hassoc]
      rw [deserializeLoop_step dec _ c' _ e _
        (read_record_at dec enc e pre (catBytes enc es' ++ suf) hge.1 hge.2)]
      have hnext : pre.length + (recordBytes enc e).length =
          (pre ++ recordBytes enc e).length := by simp
      rw [hnext]
      have hassoc2 : pre ++ recordBytes enc e ++ (catBytes enc es' ++ suf) =
          (pre ++ recordBytes enc e) ++ catBytes enc es' ++ suf := by simp
      rw [hassoc2]
      rw [ih c' (pre ++ recordBytes enc e) suf
        (fun x hx => hgood x (List.mem_cons_of_mem _ hx)) hc']
      rfl

theorem deserialize_at (dec : List ℕ → List Char) (enc : List Char → List ℕ)
    (n tocv : ℕ) (es : List (List Char × ℕ)) (suf : List ℕ)
    (hgood : ∀ e ∈ es, e.2 < 2 ^ 64 ∧ dec (enc e.1) = e.1)
    (hn : n < 2 ^ 64)
    (hcount : n = es.length ∨ (es.length ≤ n ∧ suf = [])) :
    BinaryTrieSerializer.deserialize dec
      (encode64 n ++ encode64 tocv ++ catBytes enc es ++ suf) = .ok es := by
  rw [BinaryTrieSerializer.deserialize]
  rw [if_pos (by simp [length_encode64]; omega)]
  have hhead : fread (encode64 n ++ encode64 tocv ++ catBytes enc es ++ suf) 0 8 =
      encode64 n := by
    rw [fread, List.drop_zero]
    rw [show (8 : ℕ) = (encode64 n).length from (length_encode64 n).symm]
    rw [List.append_assoc, List.append_assoc, List.take_left]
  rw [hhead, leNat_encode64 hn]
  have hpre : (16 : ℕ) = (encode64 n ++ encode64 tocv).length := by
    simp [length_encode64]
  rw [hpre]
  rw [show encode64 n ++ encode64 tocv ++ catBytes enc es ++ suf =
      (encode64 n ++ encode64 tocv) ++ catBytes enc es ++ suf from by simp]
  exact deserializeLoop_at dec enc es _ _ suf hgood hcount

/-! ## Claim C5 -/

/-- C5, counterexample: a file whose header claims one record but whose data
section is empty.  `deserialize` silently yields zero records (the `None`
branch `break`s) instead of raising, contradicting the claim that a
truncated file fails fatally before the count is exhausted. -/
theorem claim_C5_counterexample :
    BinaryTrieSerializer.deserialize (fun bs => bs.map Char.ofNat)
        (encode64 1 ++ encode64 16) = .ok [] ∧
      BinaryTrieSerializer.deserialize (fun bs => bs.map Char.ofNat)
        (encode64 1 ++ encode64 16) ≠ .error () := by
  constructor
  · rfl
  · intro h
    cases h

/-- C5, amended: `deserialize` reads the header and then yields the records
of the file in order, up to `recordCount`; when the file ends cleanly at a
record boundary before the count is exhausted it silently yields only the
records present (no error), while a record truncated mid-value (here: a
one-byte value after the string) is a fatal decode error. -/
theorem claim_C5_amended (dec : List ℕ → List Char) (enc : List Char → List ℕ)
    (n tocv : ℕ) (es : List (List Char × ℕ))
    (hgood : ∀ e ∈ es, e.2 < 2 ^ 64 ∧ dec (enc e.1) = e.1)
    (hn : n < 2 ^ 64) (hcount : es.length ≤ n) :
    BinaryTrieSerializer.deserialize dec
        (encode64 n ++ encode64 tocv ++ catBytes enc es) = .ok es ∧
      BinaryTrieSerializer.deserialize dec
        (encode64 1 ++ encode64 16 ++ [1, 65]) = .error () := by
  constructor
  · have h := deserialize_at dec enc n tocv es [] hgood hn (Or.inr ⟨hcount, rfl⟩)
    simpa using h
  · rfl

/-- Witness for the amended C5: a header advertising 2 records over a
1-record data section still deserializes, silently yielding 1 record. -/
theorem claim_C5_witness :
    (∀ e ∈ [((['a'], 5) : List Char × ℕ)],
        e.2 < 2 ^ 64 ∧ (fun bs => bs.map Char.ofNat) ((fun s => s.map Char.toNat) e.1) = e.1) ∧
      (2 : ℕ) < 2 ^ 64 ∧ ([((['a'], 5) : List Char × ℕ)]).length ≤ 2 ∧
      BinaryTrieSerializer.deserialize (fun bs => bs.map Char.ofNat)
        (encode64 2 ++ encode64 99 ++
          catBytes (fun s => s.map Char.toNat) [(['a'], 5)]) = .ok [(['a'], 5)] := by
  have h1 : ∀ e ∈ [((['a'], 5) : List Char × ℕ)],
      e.2 < 2 ^ 64 ∧ (fun bs => bs.map Char.ofNat) ((fun s => s.map Char.toNat) e.1) = e.1 := by
    decide
  have h2 : (2 : ℕ) < 2 ^ 64 := by decide
  have h3 : ([((['a'], 5) : List Char × ℕ)]).length ≤ 2 := by decide
  exact ⟨h1, h2, h3,
    (claim_C5_amended (fun bs => bs.map Char.ofNat) (fun s => s.map Char.toNat)
      2 99 [(['a'], 5)] h1 h2 h3).1⟩

/-! ## Claim C3 -/

theorem sum_le_sum_of_sublist {l₁ l₂ : List ℕ} (h : l₁.Sublist l₂) :
    l₁.sum ≤ l₂.sum := by
  induction h with
  | slnil => exact le_rfl
  | cons a h ih => simp only [List.sum_cons]; omega
  | cons₂ a h ih => simp only [List.sum_cons]; omega

theorem iterate_weight_le_sum (L : List (List Char × ℕ)) :
    ∀ q ∈ (buildTrie L).iterate, q.2 ≤ (L.map (fun kw => kw.2)).sum := by
  intro q hq
  obtain ⟨p, n, hne, hget, rfl⟩ :=
    (mem_random_iterate _ (WF_buildTrie L) [] q).mp hq
  have hp : p ≠ [] := by simpa using hne
  have hwt : (buildTrie L).wt p = n.weight := by rw [NodeTrie.wt, hget]
  show n.weight ≤ (L.map (fun kw => kw.2)).sum
  rw [← hwt, wt_buildTrie L p hp]
  exact sum_le_sum_of_sublist ((List.filter_sublist L).map (fun kw => kw.2))

theorem iterate_key_is_prefix (L : List (List Char × ℕ)) :
    ∀ q ∈ (buildTrie L).iterate, q.1 ≠ [] ∧ ∃ kw ∈ L, q.1 <+: kw.1 := by
  intro q hq
  obtain ⟨p, n, hne, hget, rfl⟩ :=
    (mem_random_iterate _ (WF_buildTrie L) [] q).mp hq
  have hp : p ≠ [] := by simpa using hne
  have hgetne : (buildTrie L).get p ≠ none := by rw [hget]; exact fun h => by cases h
  rcases (get_buildTrie_ne_none L p).mp hgetne with h | h
  · exact absurd h hp
  · exact ⟨by simpa using hp, by simpa using h⟩

/-- C3, counterexample: the claim requires only that each individual weight
fit in 64 bits, but two 2^63 weights on keys sharing the prefix `"a"` give
that prefix's node the weight 2^64, which `struct.pack('<Q', ...)` cannot
encode: serialization raises and no round trip exists. -/
theorem claim_C3_counterexample :
    ((2 ^ 63 : ℕ) < 2 ^ 64) ∧
      (((fun s : List Char => s.map Char.toNat) (['a', 'b'] : List Char)).length ≤ 255) ∧
      BinaryTrieSerializer.do_serialize (fun s => s.map Char.toNat) 1000
        (buildTrie [(['a', 'b'], 2 ^ 63), (['a', 'c'], 2 ^ 63)]) = .error () := by
  refine ⟨by decide, by decide, ?_⟩
  rfl

/-- C3, amended: the round trip holds when additionally the *sum* of all
weights fits in 64 bits (every trie node's weight is a sum of input weights,
and `struct.pack` must encode node weights, not input weights), the encoding
is length-monotone on prefixes (true of UTF-8) and invertible, and the
record count and TOC offset fit in 64 bits: then serializing the accumulated
trie and deserializing reproduces exactly the trie's iteration sequence —
in particular the same multiset of (prefix, weight) entries. -/
theorem claim_C3_amended (enc : List Char → List ℕ) (dec : List ℕ → List Char)
    (chunk : ℕ) (L : List (List Char × ℕ))
    (hchunk : 0 < chunk)
    (hkeys : ∀ kw ∈ L, (enc kw.1).length ≤ 255)
    (hmono : ∀ s₁ s₂ : List Char, s₁ <+: s₂ → (enc s₁).length ≤ (enc s₂).length)
    (hdec : ∀ s, dec (enc s) = s)
    (hsum : (L.map (fun kw => kw.2)).sum < 2 ^ 64)
    (hn : (buildTrie L).iterate.length < 2 ^ 64)
    (hts : 16 + (catBytes enc (buildTrie L).iterate).length < 2 ^ 64) :
    ∃ file, BinaryTrieSerializer.do_serialize enc chunk (buildTrie L) = .ok file ∧
      BinaryTrieSerializer.deserialize dec file = .ok ((buildTrie L).iterate) ∧
      (↑((buildTrie L).iterate) : Multiset (List Char × ℕ)) =
        ↑((buildTrie L).iterate) := by
  have hgood : ∀ e ∈ (buildTrie L).iterate,
      (enc e.1).length ≤ 255 ∧ e.2 < 2 ^ 64 := by
    intro e he
    constructor
    · obtain ⟨-, kw, hkw, hpre⟩ := iterate_key_is_prefix L e he
      exact le_trans (hmono _ _ hpre) (hkeys kw hkw)
    · exact lt_of_le_of_lt (iterate_weight_le_sum L e he) hsum
  refine ⟨_, do_serialize_ok enc hchunk _ hgood hn hts, ?_, rfl⟩
  exact deserialize_at dec enc _ _ _ _
    (fun e he => ⟨(hgood e he).2, hdec e.1⟩) hn (Or.inl rfl)

/-- Witness for the amended C3 at a concrete input. -/
theorem claim_C3_witness :
    ∃ file, BinaryTrieSerializer.do_serialize (fun s => s.map Char.toNat) 2
        (buildTrie [(['a', 'b'], 3), (['c'], 5)]) = .ok file ∧
      BinaryTrieSerializer.deserialize (fun bs => bs.map Char.ofNat) file =
        .ok ((buildTrie [(['a', 'b'], 3), (['c'], 5)]).iterate) ∧
      (↑((buildTrie [(['a', 'b'], 3), (['c'], 5)]).iterate) :
          Multiset (List Char × ℕ)) =
        ↑((buildTrie [(['a', 'b'], 3), (['c'], 5)]).iterate) :=
  by
  have hmono : ∀ s₁ s₂ : List Char, s₁ <+: s₂ →
      ((fun s => s.map Char.toNat) s₁ : List ℕ).length ≤
        ((fun s => s.map Char.toNat) s₂ : List ℕ).length := by
    intro s₁ s₂ h
    simp only [List.length_map]
    exact List.IsPrefix.length_le h
  have hdec : ∀ s : List Char,
      (fun bs => bs.map Char.ofNat) ((fun s => s.map Char.toNat) s) = s := by
    intro s
    simp only [List.map_map]
    rw [show (Char.ofNat ∘ Char.toNat) = id from funext (fun c => Char.ofNat_toNat c)]
    exact List.map_id s
  exact claim_C3_amended (fun s => s.map Char.toNat) (fun bs => bs.map Char.ofNat) 2
    [(['a', 'b'], 3), (['c'], 5)] (by decide) (by decide) hmono hdec
    (by decide) (by decide) (by decide)

/-! ### Random access theory -/

theorem readFromPosLoop_step (dec : List ℕ → List Char) (file : List ℕ)
    (endPos f pos : ℕ) (e : List Char × ℕ) (pos' : ℕ) (hlt : pos < endPos)
    (h : BinaryTrieSerializer.read_record dec file pos = .ok (some (e, pos'))) :
    readFromPosLoop dec file endPos (f + 1) pos =
      (readFromPosLoop dec file endPos f pos') >>= fun rest => .ok (e :: rest) := by
  rw [readFromPosLoop, if_pos hlt, h]

theorem readFromPosLoop_at (dec : List ℕ → List Char) (enc : List Char → List ℕ) :
    ∀ (es : List (List Char × ℕ)) (fuel : ℕ) (pre suf : List ℕ),
      (∀ e ∈ es, e.2 < 2 ^ 64 ∧ dec (enc e.1) = e.1) →
      (catBytes enc es).length ≤ fuel →
      readFromPosLoop dec (pre ++ catBytes enc es ++ suf)
        (pre.length + (catBytes enc es).length) fuel pre.length = .ok es := by
  intro es
  induction es with
  | nil =>
      intro fuel pre suf _ _
      cases fuel with
      | zero =>
          rw [readFromPosLoop, if_neg (by simp [catBytes])]
      | succ f =>
          rw [readFromPosLoop, if_neg (by simp [catBytes])]
  | cons e es' ih =>
      intro fuel pre suf hgood hfuel
      have hrb : 0 < (recordBytes enc e).length := by
        rw [length_recordBytes]
        omega
      have hlen : (catBytes enc (e :: es')).length =
          (recordBytes enc e).length + (catBytes enc es').length := by
        rw [catBytes_cons]
        simp
      obtain ⟨f, rfl⟩ : ∃ f, fuel = f + 1 := by
        cases fuel with
        | zero => exact absurd hfuel (by omega)
        | succ f => exact ⟨f, rfl⟩
      have hge := hgood e (List.mem_cons_self _ _)
      have hassoc : pre ++ catBytes enc (e :: es') ++ suf =
          pre ++ recordBytes enc e ++ (catBytes enc es' ++ suf) := by
        rw [catBytes_cons]
        simp
      rw [hassoc]
      rw [readFromPosLoop_step dec _ _ f _ e _ (by omega)
        (read_record_at dec enc e pre _ hge.1 hge.2)]
      have hp1 : pre.length + (recordBytes enc e).length =
          (pre ++ recordBytes enc e).length := by simp
      have hp2 : pre.length + (catBytes enc (e :: es')).length =
          (pre ++ recordBytes enc e).length + (catBytes enc es').length := by
        simp only [List.length_append]
        omega
      rw [hp1, hp2]
      rw [show pre ++ recordBytes enc e ++ (catBytes enc es' ++ suf) =
          (pre ++ recordBytes enc e) ++ catBytes enc es' ++ suf from by simp]
      rw [ih f (pre ++ recordBytes enc e) suf
        (fun x hx => hgood x (List.mem_cons_of_mem _ hx)) (by omega)]
      rfl

theorem read_from_pos_at (dec : List ℕ → List Char) (enc : List Char → List ℕ)
    (es : List (List Char × ℕ)) (pre suf : List ℕ)
    (hgood : ∀ e ∈ es, e.2 < 2 ^ 64 ∧ dec (enc e.1) = e.1) :
    BinaryTrieSerializer.read_from_pos dec (pre ++ catBytes enc es ++ suf)
      pre.length (pre.length + (catBytes enc es).length) = .ok es := by
  rw [BinaryTrieSerializer.read_from_pos]
  rw [show pre.length + (catBytes enc es).length - pre.length =
      (catBytes enc es).length from by omega]
  exact readFromPosLoop_at dec enc es _ pre suf hgood le_rfl

theorem length_tocBytes (pairs : List (ℕ × ℕ)) :
    (tocBytes pairs).length = 16 * pairs.length := by
  induction pairs with
  | nil => rfl
  | cons kv rest ih =>
      simp only [tocBytes, List.map_cons, List.flatten_cons, List.length_append,
        length_encode64, List.length_cons] at ih ⊢
      omega

theorem readTocLoop_at :
    ∀ (pairs : List (ℕ × ℕ)) (fuel : ℕ) (pre : List ℕ),
      (∀ kv ∈ pairs, kv.1 < 2 ^ 64 ∧ kv.2 < 2 ^ 64) →
      pairs.length < fuel →
      readTocLoop (pre ++ tocBytes pairs) fuel pre.length = .ok pairs := by
  intro pairs
  induction pairs with
  | nil =>
      intro fuel pre _ hf
      obtain ⟨f, rfl⟩ : ∃ f, fuel = f + 1 := ⟨fuel - 1, by omega⟩
      simp only [readTocLoop, tocBytes, List.map_nil, List.flatten_nil,
        List.append_nil, fread_at_end]
      rfl
  | cons kv rest ih =>
      intro fuel pre hgood hf
      obtain ⟨f, rfl⟩ : ∃ f, fuel = f + 1 := ⟨fuel - 1, by omega⟩
      have hkv := hgood kv (List.mem_cons_self _ _)
      have hsplit : pre ++ tocBytes (kv :: rest) =
          pre ++ (encode64 kv.1 ++ encode64 kv.2) ++ tocBytes rest := by
        simp only [tocBytes, List.map_cons, List.flatten_cons]
        simp
      have hchunk : fread (pre ++ tocBytes (kv :: rest)) pre.length 16 =
          encode64 kv.1 ++ encode64 kv.2 := by
        rw [hsplit, fread, List.append_assoc, List.drop_left]
        rw [show (16 : ℕ) = (encode64 kv.1 ++ encode64 kv.2).length from by
          simp [length_encode64]]
        rw [List.take_left]
      simp only [readTocLoop, hchunk]
      rw [if_neg (by simp [length_encode64]), if_neg (by simp [length_encode64])]
      have htake : (encode64 kv.1 ++ encode64 kv.2).take 8 = encode64 kv.1 := by
        rw [show (8 : ℕ) = (encode64 kv.1).length from (length_encode64 _).symm]
        rw [List.take_left]
      have hdrop : (encode64 kv.1 ++ encode64 kv.2).drop 8 = encode64 kv.2 := by
        rw [show (8 : ℕ) = (encode64 kv.1).length from (length_encode64 _).symm]
        rw [List.drop_left]
      rw [htake, hdrop, leNat_encode64 hkv.1, leNat_encode64 hkv.2]
      have hpos : pre.length + 16 = (pre ++ (encode64 kv.1 ++ encode64 kv.2)).length := by
        simp [length_encode64]
      rw [hsplit, hpos]
      rw [ih f (pre ++ (encode64 kv.1 ++ encode64 kv.2))
        (fun x hx => hgood x (List.mem_cons_of_mem _ hx))
        (by simp only [List.length_cons] at hf; omega)]
      rfl

theorem read_from_pos_at2 (dec : List ℕ → List Char) (enc : List Char → List ℕ)
    (es : List (List Char × ℕ)) (pre suf : List ℕ) (pos endP : ℕ)
    (hpos : pos = pre.length)
    (hend : endP = pre.length + (catBytes enc es).length)
    (hgood : ∀ e ∈ es, e.2 < 2 ^ 64 ∧ dec (enc e.1) = e.1) :
    BinaryTrieSerializer.read_from_pos dec (pre ++ catBytes enc es ++ suf)
      pos endP = .ok es := by
  rw [hpos, hend]
  exact read_from_pos_at dec enc es pre suf hgood

theorem readTocLoop_at2 (pairs : List (ℕ × ℕ)) (fuel : ℕ) (pre : List ℕ)
    (pos : ℕ) (hpos : pos = pre.length)
    (hgood : ∀ kv ∈ pairs, kv.1 < 2 ^ 64 ∧ kv.2 < 2 ^ 64)
    (hfuel : pairs.length < fuel) :
    readTocLoop (pre ++ tocBytes pairs) fuel pos = .ok pairs := by
  rw [hpos]
  exact readTocLoop_at pairs fuel pre hgood hfuel

theorem read_toc_at (n : ℕ) (data : List ℕ) (pairs : List (ℕ × ℕ))
    (hts : 16 + data.length < 2 ^ 64)
    (hgood : ∀ kv ∈ pairs, kv.1 < 2 ^ 64 ∧ kv.2 < 2 ^ 64) :
    BinaryTrieSerializer.read_toc
        (encode64 n ++ encode64 (16 + data.length) ++ data ++ tocBytes pairs) =
      .ok (pairs, 16 + data.length) := by
  have hfread : fread
      (encode64 n ++ encode64 (16 + data.length) ++ data ++ tocBytes pairs) 8 8 =
      encode64 (16 + data.length) := by
    rw [show encode64 n ++ encode64 (16 + data.length) ++ data ++ tocBytes pairs =
        encode64 n ++ (encode64 (16 + data.length) ++ (data ++ tocBytes pairs))
      from by simp]
    have h := fread_at (encode64 n)
      (encode64 (16 + data.length) ++ (data ++ tocBytes pairs)) 8
    simp only [length_encode64] at h
    rw [h]
    rw [show (8 : ℕ) = (encode64 (16 + data.length)).length from
      (length_encode64 _).symm]
    rw [List.take_left]
  rw [BinaryTrieSerializer.read_toc]
  rw [if_pos (by simp [length_encode64]; omega)]
  rw [hfread, leNat_encode64 hts]
  rw [show encode64 n ++ encode64 (16 + data.length) ++ data ++ tocBytes pairs =
      (encode64 n ++ encode64 (16 + data.length) ++ data) ++ tocBytes pairs
    from by simp]
  rw [readTocLoop_at2 pairs _ (encode64 n ++ encode64 (16 + data.length) ++ data)
    (16 + data.length) (by simp [length_encode64]; omega) hgood
    (by simp [length_encode64, length_tocBytes]; omega)]
  rfl

theorem find?_key_unique :
    ∀ (l : List (ℕ × ℕ)), (l.map Prod.fst).Nodup →
      ∀ kv ∈ l, l.find? (fun x => decide (x.1 = kv.1)) = some kv := by
  intro l
  induction l with
  | nil => intro _ kv h; cases h
  | cons a l' ih =>
      intro hnd kv h
      simp only [List.map_cons, List.nodup_cons] at hnd
      rcases List.mem_cons.mp h with rfl | h'
      · exact List.find?_cons_of_pos l' (by simp)
      · have ha : ¬ (a.1 = kv.1) := by
          intro he
          exact hnd.1 (he ▸ List.mem_map.mpr ⟨kv, h', rfl⟩)
        rw [List.find?_cons_of_neg l' (by simpa using ha)]
        exact ih hnd.2 kv h'

theorem toc_lookup (toc : List (ℕ × ℕ)) (hnd : (toc.map Prod.fst).Nodup)
    (kv : ℕ × ℕ) (h : kv ∈ toc) :
    toc.reverse.find? (fun x => decide (x.1 = kv.1)) = some kv := by
  apply find?_key_unique
  · rw [List.map_reverse]
    exact List.nodup_reverse.mpr hnd
  · exact List.mem_reverse.mpr h

theorem toc_locations_eq (toc : List (ℕ × ℕ))
    (hnd : (toc.map Prod.fst).Nodup)
    (hsorted : toc.Sorted (fun a b => a.1 ≤ b.1)) :
    (((toc.map Prod.fst).dedup).insertionSort (· ≤ ·)).map
      (fun k => ((toc.reverse.find? (fun kv => decide (kv.1 = k))).map
        Prod.snd).getD 0) = toc.map Prod.snd := by
  rw [List.dedup_eq_self.mpr hnd]
  have hmapsorted : (toc.map Prod.fst).Sorted (· ≤ ·) :=
    (List.pairwise_map).mpr hsorted
  rw [List.Sorted.insertionSort_eq hmapsorted]
  rw [List.map_map]
  have hpt : ∀ kv ∈ toc,
      ((fun k => ((toc.reverse.find? (fun x => decide (x.1 = k))).map
          Prod.snd).getD 0) ∘ Prod.fst) kv = Prod.snd kv := by
    intro kv hkv
    simp only [Function.comp_apply]
    rw [toc_lookup toc hnd kv hkv]
    rfl
  exact List.map_congr_left hpt

theorem tocOf_bounds (enc : List Char → List ℕ) (chunk : ℕ) :
    ∀ (es : List (List Char × ℕ)) (records pos : ℕ),
      ∀ kv ∈ tocOf enc chunk es records pos,
        kv.1 ≤ records + es.length ∧ kv.2 ≤ pos + (catBytes enc es).length := by
  intro es
  induction es with
  | nil => intro records pos kv h; cases h
  | cons e es' ih =>
      intro records pos kv h
      rw [tocOf] at h
      rcases List.mem_append.mp h with h1 | h1
      · split_ifs at h1 with hc
        · rw [List.mem_singleton.mp h1]
          constructor
          · simp only [List.length_cons]
            omega
          · rw [catBytes_cons]
            simp only [List.length_append]
            omega
        · cases h1
      · have := ih (records + 1) (pos + (recordBytes enc e).length) kv h1
        constructor
        · simp only [List.length_cons]
          omega
        · rw [catBytes_cons]
          simp only [List.length_append]
          omega

theorem intervals_at (n : ℕ) (data : List ℕ) (pairs : List (ℕ × ℕ))
    (hts : 16 + data.length < 2 ^ 64)
    (hgood : ∀ kv ∈ pairs, kv.1 < 2 ^ 64 ∧ kv.2 < 2 ^ 64)
    (hnd : (pairs.map Prod.fst).Nodup)
    (hsorted : pairs.Sorted (fun a b => a.1 ≤ b.1)) :
    BinaryTrieSerializer.intervals
        (encode64 n ++ encode64 (16 + data.length) ++ data ++ tocBytes pairs) =
      .ok (List.zip (16 :: pairs.map Prod.snd)
        (pairs.map Prod.snd ++ [16 + data.length])) := by
  rw [BinaryTrieSerializer.intervals, read_toc_at n data pairs hts hgood]
  rw [except_bind_ok]
  simp only [toc_locations_eq pairs hnd hsorted]

theorem except_bind_error {α β : Type} (e : Unit) (f : α → Except Unit β) :
    (Except.error e : Except Unit α) >>= f = .error e := rfl

theorem readIntervals_cons (dec : List ℕ → List Char) (file : List ℕ)
    (a b : ℕ) (ivs : List (ℕ × ℕ)) (rs : List (List Char × ℕ))
    (h : BinaryTrieSerializer.read_from_pos dec file a b = .ok rs) :
    readIntervals dec file ((a, b) :: ivs) =
      (readIntervals dec file ivs) >>= fun rest => .ok (rs :: rest) := by
  simp only [readIntervals, h]
  rfl

theorem readIntervals_cover (dec : List ℕ → List Char) (enc : List Char → List ℕ)
    (chunk : ℕ) :
    ∀ (m : ℕ) (es : List (List Char × ℕ)) (records : ℕ) (pre suf : List ℕ),
      (tocOf enc chunk es records pre.length).length = m →
      (∀ e ∈ es, e.2 < 2 ^ 64 ∧ dec (enc e.1) = e.1) →
      ∃ groups,
        readIntervals dec (pre ++ catBytes enc es ++ suf)
          (List.zip
            (pre.length :: (tocOf enc chunk es records pre.length).map Prod.snd)
            ((tocOf enc chunk es records pre.length).map Prod.snd ++
              [pre.length + (catBytes enc es).length])) = .ok groups ∧
        groups.flatten = es := by
  intro m
  induction m with
  | zero =>
      intro es records pre suf htoclen hgood
      have h0 : tocOf enc chunk es records pre.length = [] :=
        List.length_eq_zero.mp htoclen
      rw [h0]
      refine ⟨[es], ?_, by simp⟩
      simp only [List.map_nil, List.nil_append, List.zip_cons_cons,
        List.zip_nil_right]
      rw [readIntervals_cons dec _ pre.length (pre.length + (catBytes enc es).length)
        [] es (read_from_pos_at2 dec enc es pre suf _ _ rfl rfl hgood)]
      rfl
  | succ m ihm =>
      intro es records pre suf htoclen hgood
      cases h : tocOf enc chunk es records pre.length with
      | nil => rw [h] at htoclen; exact absurd htoclen (by simp)
      | cons kv toc' =>
          obtain ⟨k₁, o₁⟩ := kv
          obtain ⟨es₁, es₂, rfl, hne, ho, htoc'⟩ :=
            tocOf_peel enc chunk es records pre.length k₁ o₁ toc' h
          simp only [List.map_cons, List.cons_append, List.zip_cons_cons]
          rw [show pre ++ catBytes enc (es₁ ++ es₂) ++ suf =
              (pre ++ catBytes enc es₁) ++ catBytes enc es₂ ++ suf from by
            rw [catBytes_append]; simp]
          have hread : BinaryTrieSerializer.read_from_pos dec
              ((pre ++ catBytes enc es₁) ++ catBytes enc es₂ ++ suf)
              pre.length o₁ = .ok es₁ := by
            rw [show (pre ++ catBytes enc es₁) ++ catBytes enc es₂ ++ suf =
                pre ++ catBytes enc es₁ ++ (catBytes enc es₂ ++ suf) from by simp]
            exact read_from_pos_at2 dec enc es₁ pre (catBytes enc es₂ ++ suf)
              _ _ rfl (by rw [ho]) (fun x hx => hgood x (List.mem_append_left _ hx))
          have hpre2 : (pre ++ catBytes enc es₁).length = o₁ := by
            rw [ho]; simp
          have htoc2 : tocOf enc chunk es₂ (records + es₁.length)
              (pre ++ catBytes enc es₁).length = toc' := by
            rw [hpre2]; exact htoc'.symm
          have hlen2 : (tocOf enc chunk es₂ (records + es₁.length)
              (pre ++ catBytes enc es₁).length).length = m := by
            rw [htoc2]
            rw [h] at htoclen
            simpa using htoclen
          obtain ⟨groups₂, hri₂, hfl₂⟩ := ihm es₂ (records + es₁.length)
            (pre ++ catBytes enc es₁) suf hlen2
            (fun x hx => hgood x (List.mem_append_right _ hx))
          rw [htoc2, hpre2] at hri₂
          have hend : pre.length + (catBytes enc (es₁ ++ es₂)).length =
              o₁ + (catBytes enc es₂).length := by
            rw [catBytes_append]
            simp only [List.length_append]
            omega
          rw [hend]
          rw [readIntervals_cons dec _ pre.length o₁ _ es₁ hread]
          rw [hri₂, except_bind_ok]
          refine ⟨es₁ :: groups₂, rfl, ?_⟩
          simp [hfl₂]

theorem readIntervals_ok_mem (dec : List ℕ → List Char) (file : List ℕ) :
    ∀ (ivs : List (ℕ × ℕ)) (groups : List (List (List Char × ℕ))),
      readIntervals dec file ivs = .ok groups →
      ∀ iv ∈ ivs, ∃ rs,
        BinaryTrieSerializer.read_from_pos dec file iv.1 iv.2 = .ok rs := by
  intro ivs
  induction ivs with
  | nil => intro groups _ iv h; cases h
  | cons a ivs ih =>
      intro groups h iv hm
      rw [readIntervals] at h
      cases hr : BinaryTrieSerializer.read_from_pos dec file a.1 a.2 with
      | error e =>
          rw [hr, except_bind_error] at h
          exact Except.noConfusion h
      | ok rs =>
          rw [hr, except_bind_ok] at h
          rcases List.mem_cons.mp hm with rfl | hm'
          · exact ⟨rs, hr⟩
          · cases hrest : readIntervals dec file ivs with
            | error e =>
                rw [hrest, except_bind_error] at h
                exact Except.noConfusion h
            | ok gs => exact ih gs hrest iv hm'

theorem readIntervals_map (dec : List ℕ → List Char) (file : List ℕ) :
    ∀ (ivs : List (ℕ × ℕ)),
      (∀ iv ∈ ivs, ∃ rs,
        BinaryTrieSerializer.read_from_pos dec file iv.1 iv.2 = .ok rs) →
      readIntervals dec file ivs =
        .ok (ivs.map (fun iv =>
          ((BinaryTrieSerializer.read_from_pos dec file iv.1 iv.2).toOption).getD
            [])) := by
  intro ivs
  induction ivs with
  | nil => intro _; rfl
  | cons iv ivs ih =>
      intro hok
      obtain ⟨rs, hrs⟩ := hok iv (List.mem_cons_self _ _)
      rw [readIntervals, hrs, except_bind_ok,
        ih (fun x hx => hok x (List.mem_cons_of_mem _ hx)), except_bind_ok]
      simp only [List.map_cons, hrs]
      rfl

theorem random_access_perm (dec : List ℕ → List Char) (file : List ℕ)
    (ivs shuffled : List (ℕ × ℕ)) (groups : List (List (List Char × ℕ)))
    (hri : readIntervals dec file ivs = .ok groups)
    (hperm : shuffled.Perm ivs) :
    ∃ out, BinaryTrieSerializer.random_access dec file shuffled = .ok out ∧
      out.Perm groups.flatten := by
  have hok : ∀ iv ∈ ivs, ∃ rs,
      BinaryTrieSerializer.read_from_pos dec file iv.1 iv.2 = .ok rs :=
    readIntervals_ok_mem dec file ivs groups hri
  have hok2 : ∀ iv ∈ shuffled, ∃ rs,
      BinaryTrieSerializer.read_from_pos dec file iv.1 iv.2 = .ok rs :=
    fun iv hiv => hok iv (hperm.mem_iff.mp hiv)
  have hmap₁ := readIntervals_map dec file ivs hok
  have hmap₂ := readIntervals_map dec file shuffled hok2
  have hgroups : ivs.map (fun iv =>
      ((BinaryTrieSerializer.read_from_pos dec file iv.1 iv.2).toOption).getD []) =
      groups :=
    Except.ok.inj (hmap₁.symm.trans hri)
  refine ⟨(shuffled.map (fun iv =>
      ((BinaryTrieSerializer.read_from_pos dec file iv.1 iv.2).toOption).getD
        [])).flatten, ?_, ?_⟩
  · rw [BinaryTrieSerializer.random_access, hmap₂, except_bind_ok]
  · have h3 := (hperm.map (fun iv =>
        ((BinaryTrieSerializer.read_from_pos dec file iv.1 iv.2).toOption).getD
          ([] : List (List Char × ℕ)))).flatten
    rw [hgroups] at h3
    exact h3

/-! ## Claim C4 -/

/-- C4: for every file `do_serialize` produces (any chunk size, any record
list whose strings encode to at most 255 bytes, whose weights fit 64 bits and
whose encoding the decoder inverts), `deserialize` recovers exactly the
record list, the intervals built from the table of contents start right after
the 16-byte header and end at the TOC start offset, and `random_access` over
*every* shuffled order of those intervals yields exactly the same multiset of
records as `deserialize`. -/
theorem claim_C4 (dec : List ℕ → List Char) (enc : List Char → List ℕ)
    {chunk : ℕ} (hchunk : 0 < chunk) (t : NodeTrie)
    (hgood : ∀ e ∈ t.iterate, (enc e.1).length ≤ 255 ∧ e.2 < 2 ^ 64 ∧
      dec (enc e.1) = e.1)
    (hn : t.iterate.length < 2 ^ 64)
    (hts : 16 + (catBytes enc t.iterate).length < 2 ^ 64) :
    ∃ file,
      BinaryTrieSerializer.do_serialize enc chunk t = .ok file ∧
      BinaryTrieSerializer.deserialize dec file = .ok t.iterate ∧
      BinaryTrieSerializer.intervals file =
        .ok (List.zip
          (16 :: (tocOf enc chunk t.iterate 0 16).map Prod.snd)
          ((tocOf enc chunk t.iterate 0 16).map Prod.snd ++
            [16 + (catBytes enc t.iterate).length])) ∧
      ∀ shuffled,
        shuffled.Perm (List.zip
          (16 :: (tocOf enc chunk t.iterate 0 16).map Prod.snd)
          ((tocOf enc chunk t.iterate 0 16).map Prod.snd ++
            [16 + (catBytes enc t.iterate).length])) →
        ∃ out, BinaryTrieSerializer.random_access dec file shuffled = .ok out ∧
          (↑out : Multiset (List Char × ℕ)) =
            (↑t.iterate : Multiset (List Char × ℕ)) := by
  have hgood₁ : ∀ e ∈ t.iterate, (enc e.1).length ≤ 255 ∧ e.2 < 2 ^ 64 :=
    fun e he => ⟨(hgood e he).1, (hgood e he).2.1⟩
  have hgood₂ : ∀ e ∈ t.iterate, e.2 < 2 ^ 64 ∧ dec (enc e.1) = e.1 :=
    fun e he => ⟨(hgood e he).2.1, (hgood e he).2.2⟩
  have hkv : ∀ kv ∈ tocOf enc chunk t.iterate 0 16,
      kv.1 < 2 ^ 64 ∧ kv.2 < 2 ^ 64 := by
    intro kv hkvm
    have hb := tocOf_bounds enc chunk t.iterate 0 16 kv hkvm
    exact ⟨by omega, by omega⟩
  refine ⟨encode64 t.iterate.length ++
      encode64 (16 + (catBytes enc t.iterate).length) ++
      catBytes enc t.iterate ++ tocBytes (tocOf enc chunk t.iterate 0 16),
    ?_, ?_, ?_, ?_⟩
  · exact do_serialize_ok enc hchunk t hgood₁ hn hts
  · exact deserialize_at dec enc t.iterate.length
      (16 + (catBytes enc t.iterate).length) t.iterate _ hgood₂ hn (Or.inl rfl)
  · exact intervals_at t.iterate.length (catBytes enc t.iterate)
      (tocOf enc chunk t.iterate 0 16) hts hkv
      (tocOf_nodup_fst enc chunk t.iterate 0 16)
      (tocOf_sorted enc chunk t.iterate 0 16)
  · intro shuffled hperm
    obtain ⟨groups, hri, hfl⟩ := readIntervals_cover dec enc chunk
      (tocOf enc chunk t.iterate 0
        (encode64 t.iterate.length ++
          encode64 (16 + (catBytes enc t.iterate).length)).length).length
      t.iterate 0
      (encode64 t.iterate.length ++
        encode64 (16 + (catBytes enc t.iterate).length))
      (tocBytes (tocOf enc chunk t.iterate 0 16)) rfl hgood₂
    rw [show (encode64 t.iterate.length ++
        encode64 (16 + (catBytes enc t.iterate).length)).length = 16 from by
      simp [length_encode64]] at hri
    obtain ⟨out, hout, houtperm⟩ :=
      random_access_perm dec _ _ shuffled groups hri hperm
    refine ⟨out, hout, ?_⟩
    rw [Multiset.coe_eq_coe]
    rw [hfl] at houtperm
    exact houtperm

theorem claim_C4_witness :
    ((0 : ℕ) < 2 ∧
      (∀ e ∈ trieC4.iterate, (encC4 e.1).length ≤ 255 ∧ e.2 < 2 ^ 64 ∧
        decC4 (encC4 e.1) = e.1) ∧
      trieC4.iterate.length < 2 ^ 64 ∧
      16 + (catBytes encC4 trieC4.iterate).length < 2 ^ 64) ∧
    (∃ file,
      BinaryTrieSerializer.do_serialize encC4 2 trieC4 = .ok file ∧
      BinaryTrieSerializer.deserialize decC4 file = .ok trieC4.iterate ∧
      BinaryTrieSerializer.intervals file =
        .ok (List.zip
          (16 :: (tocOf encC4 2 trieC4.iterate 0 16).map Prod.snd)
          ((tocOf encC4 2 trieC4.iterate 0 16).map Prod.snd ++
            [16 + (catBytes encC4 trieC4.iterate).length])) ∧
      ∀ shuffled,
        shuffled.Perm (List.zip
          (16 :: (tocOf encC4 2 trieC4.iterate 0 16).map Prod.snd)
          ((tocOf encC4 2 trieC4.iterate 0 16).map Prod.snd ++
            [16 + (catBytes encC4 trieC4.iterate).length])) →
        ∃ out, BinaryTrieSerializer.random_access decC4 file shuffled = .ok out ∧
          (↑out : Multiset (List Char × ℕ)) =
            (↑trieC4.iterate : Multiset (List Char × ℕ))) :=
  ⟨⟨by decide, by decide, by decide, by decide⟩,
    claim_C4 decC4 encC4 (by decide) trieC4 (by decide) (by decide) (by decide)⟩

/-! ## Claim C6 -/

/-- C6, counterexample: the claim promises that every sequence of increments
with fork length 2 reproduces each original (key, weight) pair exactly once
and serializes each partition exactly once.  Re-incrementing a fork prefix
that occurred before breaks both: after `"abcd"`, `"efgh"`, `"abij"` the
second `"ab"` branch closes under `str(self.keys.index('ab')) = '0'`,
overwriting the first `"ab"` partition, and `'ab'` sits in `keys` twice, so
iteration yields `("abij", 1)` twice and `("abcd", 1)` never; the serialize
log `[0, 1, 0]` writes partition 0 twice. -/
theorem claim_C6_counterexample :
    (buildDiskTrie 2 [(['a', 'b', 'c', 'd'], 1), (['e', 'f', 'g', 'h'], 1),
        (['a', 'b', 'i', 'j'], 1)]).iterate.count (['a', 'b', 'c', 'd'], 1) =
        0 ∧
    (buildDiskTrie 2 [(['a', 'b', 'c', 'd'], 1), (['e', 'f', 'g', 'h'], 1),
        (['a', 'b', 'i', 'j'], 1)]).iterate.count (['a', 'b', 'i', 'j'], 1) =
        2 ∧
    (buildDiskTrie 2 [(['a', 'b', 'c', 'd'], 1), (['e', 'f', 'g', 'h'], 1),
        (['a', 'b', 'i', 'j'], 1)]).finish.serialize_log = [0, 1, 0] := by
  decide

theorem indexOf_cons_self2 (k : List Char) (l : List (List Char)) :
    List.indexOf k (k :: l) = 0 := by
  rw [List.indexOf_cons]
  simp

theorem indexOf_cons_ne2 (a k : List Char) (l : List (List Char)) (h : a ≠ k) :
    List.indexOf k (a :: l) = List.indexOf k l + 1 := by
  rw [List.indexOf_cons]
  have hb : (a == k) = false := by
    rw [beq_eq_false_iff_ne]
    exact h
  rw [hb]
  rfl

theorem indexOf_append_self (l : List (List Char)) (k : List Char)
    (h : k ∉ l) : (l ++ [k]).indexOf k = l.length := by
  induction l with
  | nil => exact indexOf_cons_self2 k []
  | cons a l ih =>
      have hak : a ≠ k := fun he => h (he ▸ List.mem_cons_self a l)
      rw [List.cons_append, indexOf_cons_ne2 a k _ hak,
        ih (fun hm => h (List.mem_cons_of_mem a hm)), List.length_cons]

theorem nodup_indexOf_get (ks : List (List Char)) (hnd : ks.Nodup)
    (j : ℕ) (hj : j < ks.length) :
    List.indexOf (ks.get ⟨j, hj⟩) ks = j := by
  induction ks generalizing j with
  | nil => exact absurd hj (by simp)
  | cons a ks ih =>
      rw [List.nodup_cons] at hnd
      cases j with
      | zero => exact indexOf_cons_self2 a ks
      | succ j' =>
          have hj' : j' < ks.length := by
            simp only [List.length_cons] at hj
            omega
          have hne : a ≠ ks.get ⟨j', hj'⟩ :=
            fun he => hnd.1 (he ▸ List.get_mem ks j' hj')
          rw [show (a :: ks).get ⟨j' + 1, hj⟩ = ks.get ⟨j', hj'⟩ from rfl]
          rw [indexOf_cons_ne2 a _ ks hne, ih hnd.2 j' hj']

theorem dictSet_fresh (k : ℕ) (v : NodeTrie) :
    ∀ (store : List (ℕ × NodeTrie)), (∀ kv ∈ store, kv.1 ≠ k) →
      dictSet store k v = store ++ [(k, v)] := by
  intro store
  induction store with
  | nil => intro _; rfl
  | cons kv rest ih =>
      intro h
      rw [show dictSet (kv :: rest) k v =
          if kv.1 = k then (kv.1, v) :: rest else
            (kv.1, kv.2) :: dictSet rest k v from rfl]
      rw [if_neg (h kv (List.mem_cons_self _ _)),
        ih (fun x hx => h x (List.mem_cons_of_mem _ hx))]
      rfl

theorem dictGet_zip_range2 :
    ∀ (ms : List NodeTrie) (off j : ℕ) (hj : j < ms.length),
      dictGet ((List.range' off ms.length).zip ms) (off + j) =
        some (ms.get ⟨j, hj⟩) := by
  intro ms
  induction ms with
  | nil => intro off j hj; exact absurd hj (by simp)
  | cons m ms ih =>
      intro off j hj
      have hz : (List.range' off (m :: ms).length).zip (m :: ms) =
          (off, m) :: (List.range' (off + 1) ms.length).zip ms := rfl
      rw [hz]
      cases j with
      | zero =>
          rw [dictGet, List.find?_cons_of_pos _ (by simp)]
          rfl
      | succ j' =>
          have hj' : j' < ms.length := by
            simp only [List.length_cons] at hj
            omega
          rw [dictGet, List.find?_cons_of_neg _ (by simp), ← dictGet]
          rw [show off + (j' + 1) = off + 1 + j' from by omega]
          rw [ih (off + 1) j' hj']
          rfl

theorem dictGet_zip_range (ms : List NodeTrie) (j : ℕ) (hj : j < ms.length) :
    dictGet ((List.range ms.length).zip ms) j = some (ms.get ⟨j, hj⟩) := by
  have h := dictGet_zip_range2 ms 0 j hj
  rw [Nat.zero_add] at h
  rw [List.range_eq_range']
  exact h

theorem flatMap_congr_left {α β : Type} (l : List α) (f g : α → List β)
    (h : ∀ a ∈ l, f a = g a) : l.flatMap f = l.flatMap g := by
  induction l with
  | nil => rfl
  | cons a l ih =>
      rw [List.flatMap_cons, List.flatMap_cons, h a (List.mem_cons_self _ _),
        ih (fun x hx => h x (List.mem_cons_of_mem _ hx))]

theorem flatMap_map_fst {α β γ : Type} (l : List (α × β)) (g : α → List γ) :
    (l.map Prod.fst).flatMap g = l.flatMap (fun x => g x.1) := by
  induction l with
  | nil => rfl
  | cons a l ih =>
      rw [List.map_cons, List.flatMap_cons, List.flatMap_cons, ih]

theorem foldl_inc_same_branch (fork : ℕ) (bk : List Char)
    (hbk : bk.length = fork) :
    ∀ (its : List (List Char × ℕ)) (cn wt : NodeTrie)
      (ks : List (List Char)) (st : List (ℕ × NodeTrie)) (lg : List ℕ),
      List.foldl (fun d e => d.increment e.1 e.2)
        (⟨some cn, some bk, wt, ks, fork, st, lg⟩ : DiskBackedTrie)
        (blockItems bk its) =
        (⟨some (its.foldl (fun t e => t.increment e.1 e.2) cn), some bk,
          its.foldl (fun t e => t.increment bk e.2) wt, ks, fork, st, lg⟩ :
          DiskBackedTrie) := by
  intro its
  induction its with
  | nil => intro cn wt ks st lg; rfl
  | cons it its ih =>
      intro cn wt ks st lg
      have hstep : DiskBackedTrie.increment
          (⟨some cn, some bk, wt, ks, fork, st, lg⟩ : DiskBackedTrie)
          (bk ++ it.1) it.2 =
          (⟨some (cn.increment it.1 it.2), some bk, wt.increment bk it.2,
            ks, fork, st, lg⟩ : DiskBackedTrie) := by
        simp only [DiskBackedTrie.increment]
        rw [show (bk ++ it.1).take fork = bk from by
          rw [← hbk]; exact List.take_left bk it.1]
        rw [show (bk ++ it.1).drop fork = it.1 from by
          rw [← hbk]; exact List.drop_left bk it.1]
        simp
      rw [show blockItems bk (it :: its) =
          (bk ++ it.1, it.2) :: blockItems bk its from rfl]
      simp only [List.foldl_cons]
      rw [hstep, ih]

theorem foldl_starts (bk : List Char) :
    ∀ (its : List (List Char × ℕ)) (w0 : NodeTrie),
      (its.map (fun x => (bk, x.2))).foldl
          (fun t kw => t.increment kw.1 kw.2) w0 =
        its.foldl (fun t e => t.increment bk e.2) w0 := by
  intro its
  induction its with
  | nil => intro w0; rfl
  | cons x its ih =>
      intro w0
      simp only [List.map_cons, List.foldl_cons]
      exact ih (w0.increment bk x.2)

theorem buildDiskTrie_state (fork : ℕ) :
    ∀ (bs : List (List Char × List (List Char × ℕ)))
      (b : List Char × List (List Char × ℕ)),
      ((bs ++ [b]).map Prod.fst).Nodup →
      (∀ bl ∈ bs ++ [b], bl.1.length = fork) →
      (∀ bl ∈ bs ++ [b], bl.2 ≠ []) →
      buildDiskTrie fork
          ((bs ++ [b]).flatMap (fun bl => blockItems bl.1 bl.2)) =
        (⟨some (buildTrie b.2), some b.1,
          buildTrie ((bs ++ [b]).flatMap
            (fun bl => bl.2.map (fun it => (bl.1, it.2)))),
          (bs ++ [b]).map Prod.fst, fork,
          (List.range bs.length).zip (bs.map (fun bl => buildTrie bl.2)),
          List.range bs.length⟩ : DiskBackedTrie) := by
  intro bs
  induction bs using List.reverseRecOn with
  | nil =>
      intro b hnd hfork hitsne
      have hforkb : b.1.length = fork := hfork b (by simp)
      obtain ⟨it, its, hb2⟩ : ∃ it its, b.2 = it :: its := by
        cases h2 : b.2 with
        | nil => exact absurd h2 (hitsne b (by simp))
        | cons it its => exact ⟨it, its, rfl⟩
      simp only [List.nil_append]
      rw [show ([b] : List (List Char × List (List Char × ℕ))).flatMap
          (fun bl => blockItems bl.1 bl.2) = blockItems b.1 b.2 from by simp]
      rw [hb2]
      rw [show blockItems b.1 (it :: its) =
          (b.1 ++ it.1, it.2) :: blockItems b.1 its from rfl]
      rw [buildDiskTrie]
      simp only [List.foldl_cons]
      have hstep : DiskBackedTrie.increment (DiskBackedTrie.new fork)
          (b.1 ++ it.1) it.2 =
          (⟨some (NodeTrie.new.increment it.1 it.2), some b.1,
            NodeTrie.new.increment b.1 it.2, [b.1], fork, [], []⟩ :
            DiskBackedTrie) := by
        simp only [DiskBackedTrie.increment, DiskBackedTrie.new]
        rw [show (b.1 ++ it.1).take fork = b.1 from by
          rw [← hforkb]; exact List.take_left _ _]
        rw [show (b.1 ++ it.1).drop fork = it.1 from by
          rw [← hforkb]; exact List.drop_left _ _]
        simp [DiskBackedTrie.open_new_branch, DiskBackedTrie.close_branch]
      rw [hstep]
      rw [foldl_inc_same_branch fork b.1 hforkb its _ _ _ _ _]
      have hN : buildTrie (it :: its) =
          its.foldl (fun t e => t.increment e.1 e.2)
            (NodeTrie.new.increment it.1 it.2) := by
        rw [buildTrie, List.foldl_cons]
      have hW : buildTrie (([b] : List (List Char × List (List Char × ℕ))).flatMap
            (fun bl => bl.2.map (fun x => (bl.1, x.2)))) =
          its.foldl (fun t e => t.increment b.1 e.2)
            (NodeTrie.new.increment b.1 it.2) := by
        rw [show ([b] : List (List Char × List (List Char × ℕ))).flatMap
            (fun bl => bl.2.map (fun x => (bl.1, x.2))) =
            b.2.map (fun x => (b.1, x.2)) from by simp]
        rw [hb2, buildTrie, foldl_starts b.1 (it :: its) NodeTrie.new,
          List.foldl_cons]
      rw [hN, hW]
      rw [show ([b] : List (List Char × List (List Char × ℕ))).map Prod.fst =
        [b.1] from rfl]
      rfl
  | append_singleton bs' a ih =>
      intro b hnd hfork hitsne
      have hnd2 : ((bs' ++ [a]).map Prod.fst).Nodup := by
        rw [List.map_append] at hnd
        exact (List.nodup_append.mp hnd).1
      have hbnotin : b.1 ∉ (bs' ++ [a]).map Prod.fst := by
        rw [List.map_append] at hnd
        exact fun hm => (List.nodup_append.mp hnd).2.2 hm (by simp)
      have hfork2 : ∀ bl ∈ bs' ++ [a], bl.1.length = fork :=
        fun bl hm => hfork bl (List.mem_append_left _ hm)
      have hitsne2 : ∀ bl ∈ bs' ++ [a], bl.2 ≠ [] :=
        fun bl hm => hitsne bl (List.mem_append_left _ hm)
      have hforkb : b.1.length = fork :=
        hfork b (List.mem_append_right _ (by simp))
      have hanotin : a.1 ∉ bs'.map Prod.fst := by
        rw [List.map_append] at hnd2
        exact fun hm => (List.nodup_append.mp hnd2).2.2 hm (by simp)
      have hab : a.1 ≠ b.1 := by
        intro he
        exact hbnotin (he ▸ (by simp : a.1 ∈ (bs' ++ [a]).map Prod.fst))
      obtain ⟨it, its, hb2⟩ : ∃ it its, b.2 = it :: its := by
        cases h2 : b.2 with
        | nil => exact absurd h2 (hitsne b (List.mem_append_right _ (by simp)))
        | cons it its => exact ⟨it, its, rfl⟩
      rw [buildDiskTrie, List.flatMap_append, List.foldl_append]
      rw [show List.foldl (fun d e => d.increment e.1 e.2)
          (DiskBackedTrie.new fork)
          ((bs' ++ [a]).flatMap (fun bl => blockItems bl.1 bl.2)) =
          buildDiskTrie fork
            ((bs' ++ [a]).flatMap (fun bl => blockItems bl.1 bl.2)) from rfl]
      rw [ih a hnd2 hfork2 hitsne2]
      rw [show ([b] : List (List Char × List (List Char × ℕ))).flatMap
          (fun bl => blockItems bl.1 bl.2) = blockItems b.1 b.2 from by simp]
      rw [hb2]
      rw [show blockItems b.1 (it :: its) =
          (b.1 ++ it.1, it.2) :: blockItems b.1 its from rfl]
      simp only [List.foldl_cons]
      have hidx : List.indexOf a.1 ((bs' ++ [a]).map Prod.fst) =
          bs'.length := by
        rw [List.map_append]
        rw [show ([a] : List (List Char × List (List Char × ℕ))).map Prod.fst =
          [a.1] from rfl]
        rw [indexOf_append_self _ _ hanotin, List.length_map]
      have hfresh : ∀ kv ∈ (List.range bs'.length).zip
          (bs'.map (fun bl => buildTrie bl.2)), kv.1 ≠ bs'.length := by
        intro kv hm
        obtain ⟨k, v⟩ := kv
        have h1 := (List.of_mem_zip hm).1
        have h2 := List.mem_range.mp h1
        omega
      have hstep : DiskBackedTrie.increment
          (⟨some (buildTrie a.2), some a.1,
            buildTrie ((bs' ++ [a]).flatMap
              (fun bl => bl.2.map (fun x => (bl.1, x.2)))),
            (bs' ++ [a]).map Prod.fst, fork,
            (List.range bs'.length).zip (bs'.map (fun bl => buildTrie bl.2)),
            List.range bs'.length⟩ : DiskBackedTrie) (b.1 ++ it.1) it.2 =
          (⟨some (NodeTrie.new.increment it.1 it.2), some b.1,
            (buildTrie ((bs' ++ [a]).flatMap
              (fun bl => bl.2.map (fun x => (bl.1, x.2))))).increment b.1 it.2,
            (bs' ++ [a]).map Prod.fst ++ [b.1], fork,
            (List.range bs'.length).zip (bs'.map (fun bl => buildTrie bl.2)) ++
              [(bs'.length, buildTrie a.2)],
            List.range bs'.length ++ [bs'.length]⟩ : DiskBackedTrie) := by
        simp only [DiskBackedTrie.increment]
        rw [show (b.1 ++ it.1).take fork = b.1 from by
          rw [← hforkb]; exact List.take_left _ _]
        rw [show (b.1 ++ it.1).drop fork = it.1 from by
          rw [← hforkb]; exact List.drop_left _ _]
        rw [if_neg (by simp [hab])]
        simp only [DiskBackedTrie.open_new_branch, DiskBackedTrie.close_branch]
        simp only [hidx]
        rw [dictSet_fresh bs'.length (buildTrie a.2) _ hfresh]
        simp
      rw [hstep]
      rw [foldl_inc_same_branch fork b.1 hforkb its _ _ _ _ _]
      have hN : buildTrie (it :: its) =
          its.foldl (fun t e => t.increment e.1 e.2)
            (NodeTrie.new.increment it.1 it.2) := by
        rw [buildTrie, List.foldl_cons]
      have hW : buildTrie (((bs' ++ [a]) ++ [b]).flatMap
            (fun bl => bl.2.map (fun x => (bl.1, x.2)))) =
          its.foldl (fun t e => t.increment b.1 e.2)
            ((buildTrie ((bs' ++ [a]).flatMap
              (fun bl => bl.2.map (fun x => (bl.1, x.2))))).increment
                b.1 it.2) := by
        rw [List.flatMap_append]
        rw [show ([b] : List (List Char × List (List Char × ℕ))).flatMap
            (fun bl => bl.2.map (fun x => (bl.1, x.2))) =
            b.2.map (fun x => (b.1, x.2)) from by simp]
        conv_lhs => rw [buildTrie]
        rw [List.foldl_append]
        rw [show List.foldl (fun t kw => t.increment kw.1 kw.2) NodeTrie.new
            ((bs' ++ [a]).flatMap (fun bl => bl.2.map (fun x => (bl.1, x.2)))) =
            buildTrie ((bs' ++ [a]).flatMap
              (fun bl => bl.2.map (fun x => (bl.1, x.2)))) from rfl]
        rw [hb2, foldl_starts b.1 (it :: its) _, List.foldl_cons]
      have hK : ((bs' ++ [a]) ++ [b]).map Prod.fst =
          (bs' ++ [a]).map Prod.fst ++ [b.1] := by
        simp
      have hS : (List.range (bs' ++ [a]).length).zip
            ((bs' ++ [a]).map (fun bl => buildTrie bl.2)) =
          (List.range bs'.length).zip (bs'.map (fun bl => buildTrie bl.2)) ++
            [(bs'.length, buildTrie a.2)] := by
        rw [show (bs' ++ [a]).length = bs'.length + 1 from by simp]
        rw [List.range_succ, List.map_append]
        rw [List.zip_append (by simp)]
        rfl
      have hL : List.range (bs' ++ [a]).length =
          List.range bs'.length ++ [bs'.length] := by
        rw [show (bs' ++ [a]).length = bs'.length + 1 from by simp]
        rw [List.range_succ]
      rw [hN, hW, hK, hS, hL]

theorem buildDiskTrie_finish (fork : ℕ)
    (bs : List (List Char × List (List Char × ℕ)))
    (b : List Char × List (List Char × ℕ))
    (hnd : ((bs ++ [b]).map Prod.fst).Nodup)
    (hfork : ∀ bl ∈ bs ++ [b], bl.1.length = fork)
    (hitsne : ∀ bl ∈ bs ++ [b], bl.2 ≠ []) :
    (buildDiskTrie fork
        ((bs ++ [b]).flatMap (fun bl => blockItems bl.1 bl.2))).finish =
      (⟨none, none,
        buildTrie ((bs ++ [b]).flatMap
          (fun bl => bl.2.map (fun it => (bl.1, it.2)))),
        (bs ++ [b]).map Prod.fst, fork,
        (List.range (bs ++ [b]).length).zip
          ((bs ++ [b]).map (fun bl => buildTrie bl.2)),
        List.range (bs ++ [b]).length⟩ : DiskBackedTrie) := by
  rw [buildDiskTrie_state fork bs b hnd hfork hitsne]
  have hbnotin : b.1 ∉ bs.map Prod.fst := by
    rw [List.map_append] at hnd
    exact fun hm => (List.nodup_append.mp hnd).2.2 hm (by simp)
  have hidx : List.indexOf b.1 ((bs ++ [b]).map Prod.fst) = bs.length := by
    rw [List.map_append]
    rw [show ([b] : List (List Char × List (List Char × ℕ))).map Prod.fst =
      [b.1] from rfl]
    rw [indexOf_append_self _ _ hbnotin, List.length_map]
  have hfresh : ∀ kv ∈ (List.range bs.length).zip
      (bs.map (fun bl => buildTrie bl.2)), kv.1 ≠ bs.length := by
    intro kv hm
    obtain ⟨k, v⟩ := kv
    have h1 := (List.of_mem_zip hm).1
    have h2 := List.mem_range.mp h1
    omega
  simp only [DiskBackedTrie.finish, DiskBackedTrie.close_branch]
  simp only [hidx]
  rw [dictSet_fresh bs.length (buildTrie b.2) _ hfresh]
  have hS : (List.range bs.length).zip (bs.map (fun bl => buildTrie bl.2)) ++
        [(bs.length, buildTrie b.2)] =
      (List.range (bs ++ [b]).length).zip
        ((bs ++ [b]).map (fun bl => buildTrie bl.2)) := by
    rw [show (bs ++ [b]).length = bs.length + 1 from by simp]
    rw [List.range_succ, List.map_append]
    rw [List.zip_append (by simp)]
    rfl
  have hL : List.range bs.length ++ [bs.length] =
      List.range (bs ++ [b]).length := by
    rw [show (bs ++ [b]).length = bs.length + 1 from by simp]
    rw [List.range_succ]
  rw [hS, hL]

theorem buildDiskTrie_iterate (fork : ℕ)
    (bs : List (List Char × List (List Char × ℕ)))
    (b : List Char × List (List Char × ℕ))
    (hnd : ((bs ++ [b]).map Prod.fst).Nodup)
    (hfork : ∀ bl ∈ bs ++ [b], bl.1.length = fork)
    (hitsne : ∀ bl ∈ bs ++ [b], bl.2 ≠ []) :
    (buildDiskTrie fork
        ((bs ++ [b]).flatMap (fun bl => blockItems bl.1 bl.2))).iterate =
      (buildTrie ((bs ++ [b]).flatMap
          (fun bl => bl.2.map (fun it => (bl.1, it.2))))).random_iterate [] ++
        (bs ++ [b]).flatMap partEntries := by
  simp only [DiskBackedTrie.iterate,
    buildDiskTrie_finish fork bs b hnd hfork hitsne]
  rw [flatMap_map_fst]
  refine congrArg (fun z =>
    (buildTrie ((bs ++ [b]).flatMap
      (fun bl => bl.2.map (fun it => (bl.1, it.2))))).random_iterate [] ++ z)
    (flatMap_congr_left _ _ _ ?_)
  intro bl hm
  obtain ⟨⟨j, hj⟩, hget⟩ := List.mem_iff_get.mp hm
  have hj2 : j < ((bs ++ [b]).map Prod.fst).length := by simpa using hj
  have hkeyget : ((bs ++ [b]).map Prod.fst).get ⟨j, hj2⟩ = bl.1 := by
    simp only [List.get_eq_getElem, List.getElem_map]
    rw [show (bs ++ [b])[j] = bl from by
      rw [← List.get_eq_getElem (bs ++ [b]) ⟨j, hj⟩]; exact hget]
  have hidx : List.indexOf bl.1 ((bs ++ [b]).map Prod.fst) = j := by
    rw [← hkeyget]
    exact nodup_indexOf_get _ hnd j hj2
  have hj3 : j < ((bs ++ [b]).map (fun bl => buildTrie bl.2)).length := by
    simpa using hj
  have hstore : dictGet
      ((List.range (bs ++ [b]).length).zip
        ((bs ++ [b]).map (fun bl => buildTrie bl.2))) j =
      some (buildTrie bl.2) := by
    have h := dictGet_zip_range ((bs ++ [b]).map (fun bl => buildTrie bl.2))
      j hj3
    rw [show List.range (bs ++ [b]).length =
      List.range ((bs ++ [b]).map (fun bl => buildTrie bl.2)).length from
      by simp]
    rw [h]
    simp only [List.get_eq_getElem, List.getElem_map]
    rw [show (bs ++ [b])[j] = bl from by
      rw [← List.get_eq_getElem (bs ++ [b]) ⟨j, hj⟩]; exact hget]
  rw [hidx, hstore]
  rfl

theorem filter_isPre_singleton :
    ∀ (its : List (List Char × ℕ)) (r : List Char) (w : ℕ),
      (r, w) ∈ its →
      (its.map Prod.fst).Pairwise (fun p q => ¬ p <+: q ∧ ¬ q <+: p) →
      its.filter (fun kw => decide (r <+: kw.1)) = [(r, w)] := by
  intro its
  induction its with
  | nil => intro r w hm; cases hm
  | cons kw its ih =>
      intro r w hm hp
      rw [List.map_cons, List.pairwise_cons] at hp
      rcases List.mem_cons.mp hm with rfl | hm'
      · rw [List.filter_cons]
        rw [if_pos (by simp)]
        have hrest : its.filter (fun x => decide ((r, w).1 <+: x.1)) = [] := by
          rw [List.filter_eq_nil_iff]
          intro x hx
          simp only [decide_eq_true_eq]
          exact (hp.1 x.1 (List.mem_map.mpr ⟨x, hx, rfl⟩)).1
        rw [hrest]
      · have hrk : ¬ r <+: kw.1 :=
          (hp.1 r (List.mem_map.mpr ⟨(r, w), hm', rfl⟩)).2
        rw [List.filter_cons, if_neg (by simpa using hrk)]
        exact ih r w hm' hp.2

theorem count_buildTrie_item (its : List (List Char × ℕ)) (r : List Char)
    (w : ℕ) (hm : (r, w) ∈ its) (hr : r ≠ [])
    (hpnp : (its.map Prod.fst).Pairwise (fun p q => ¬ p <+: q ∧ ¬ q <+: p)) :
    (↑(buildTrie its).iterate : Multiset (List Char × ℕ)).count (r, w) = 1 := by
  have hget : ∃ n, (buildTrie its).get r = some n := by
    have h := (get_buildTrie_ne_none its r).mpr
      (Or.inr ⟨(r, w), hm, List.prefix_refl r⟩)
    cases hh : (buildTrie its).get r with
    | none => exact absurd hh h
    | some n => exact ⟨n, rfl⟩
  obtain ⟨n, hn⟩ := hget
  have hwt : n.weight = w := by
    have h := wt_buildTrie its r hr
    rw [NodeTrie.wt, hn] at h
    rw [filter_isPre_singleton its r w hm hpnp] at h
    simpa using h
  have h := count_iterate_of_get (buildTrie its) (WF_buildTrie its) hn hr
  rw [hwt] at h
  exact h

theorem partEntries_inj (bk : List Char) :
    Function.Injective
      (fun e : List Char × ℕ => ((bk ++ e.1, e.2) : List Char × ℕ)) := by
  intro e1 e2 h
  simp only [Prod.mk.injEq] at h
  exact Prod.ext (List.append_cancel_left h.1) h.2

theorem count_partEntries_self (bl : List Char × List (List Char × ℕ))
    (r : List Char) (w : ℕ) (hit : (r, w) ∈ bl.2) (hrne : r ≠ [])
    (hpnp : (bl.2.map Prod.fst).Pairwise (fun p q => ¬ p <+: q ∧ ¬ q <+: p)) :
    (↑(partEntries bl) : Multiset (List Char × ℕ)).count (bl.1 ++ r, w) = 1 := by
  rw [partEntries, ← Multiset.map_coe]
  have h := Multiset.count_map_eq_count'
    (fun e : List Char × ℕ => ((bl.1 ++ e.1, e.2) : List Char × ℕ))
    (↑((buildTrie bl.2).random_iterate []) : Multiset (List Char × ℕ))
    (partEntries_inj bl.1) (r, w)
  rw [h]
  exact count_buildTrie_item bl.2 r w hit hrne hpnp

theorem count_partEntries_other (bl : List Char × List (List Char × ℕ))
    (bk r : List Char) (w : ℕ) (hlen : bl.1.length = bk.length)
    (hne : bl.1 ≠ bk) :
    (↑(partEntries bl) : Multiset (List Char × ℕ)).count (bk ++ r, w) = 0 := by
  rw [Multiset.count_eq_zero, Multiset.mem_coe]
  intro hmem
  obtain ⟨e, hme, he⟩ := List.mem_map.mp hmem
  simp only [Prod.mk.injEq] at he
  exact hne (List.append_inj he.1 hlen).1

theorem count_parts_zero (fork : ℕ) (bk r : List Char) (w : ℕ)
    (hbk : bk.length = fork) :
    ∀ (bls : List (List Char × List (List Char × ℕ))),
      (∀ bl ∈ bls, bl.1.length = fork ∧ bl.1 ≠ bk) →
      (↑(bls.flatMap partEntries) : Multiset (List Char × ℕ)).count
        (bk ++ r, w) = 0 := by
  intro bls
  induction bls with
  | nil => intro _; rfl
  | cons bl bls ih =>
      intro h
      rw [List.flatMap_cons, ← Multiset.coe_add, Multiset.count_add]
      have hbl := h bl (List.mem_cons_self _ _)
      rw [count_partEntries_other bl bk r w (by omega) hbl.2]
      rw [ih (fun x hx => h x (List.mem_cons_of_mem _ hx))]

theorem count_parts_one (fork : ℕ) (bk r : List Char) (w : ℕ)
    (hbk : bk.length = fork) (hrne : r ≠ []) :
    ∀ (blocks : List (List Char × List (List Char × ℕ))),
      (∀ bl ∈ blocks, bl.1.length = fork) →
      (blocks.map Prod.fst).Nodup →
      ∀ b ∈ blocks, b.1 = bk → (r, w) ∈ b.2 →
      (b.2.map Prod.fst).Pairwise (fun p q => ¬ p <+: q ∧ ¬ q <+: p) →
      (↑(blocks.flatMap partEntries) : Multiset (List Char × ℕ)).count
        (bk ++ r, w) = 1 := by
  intro blocks
  induction blocks with
  | nil => intro _ _ b hb; cases hb
  | cons bl bls ih =>
      intro hfork hnd b hbm hbk1 hrm hpnp
      rw [List.flatMap_cons, ← Multiset.coe_add, Multiset.count_add]
      rw [List.map_cons, List.nodup_cons] at hnd
      rcases List.mem_cons.mp hbm with rfl | hbm'
      · rw [← hbk1]
        rw [count_partEntries_self b r w hrm hrne hpnp]
        have htail : (↑(bls.flatMap partEntries) :
            Multiset (List Char × ℕ)).count (b.1 ++ r, w) = 0 := by
          apply count_parts_zero fork b.1 r w (hbk1 ▸ hbk)
          intro x hx
          refine ⟨(hfork x (List.mem_cons_of_mem _ hx)), ?_⟩
          intro he
          exact hnd.1 (he ▸ List.mem_map.mpr ⟨x, hx, rfl⟩)
        rw [htail]
      · have hblne : bl.1 ≠ bk := by
          intro he
          apply hnd.1
          rw [he, ← hbk1]
          exact List.mem_map.mpr ⟨b, hbm', rfl⟩
        rw [count_partEntries_other bl bk r w
          (by have := hfork bl (List.mem_cons_self _ _); omega) hblne]
        rw [ih (fun x hx => hfork x (List.mem_cons_of_mem _ hx)) hnd.2
          b hbm' hbk1 hrm hpnp]

theorem mem_iterate_buildTrie_key (L : List (List Char × ℕ))
    (q : List Char × ℕ) (h : q ∈ (buildTrie L).random_iterate []) :
    q.1 ≠ [] ∧ ∃ kw ∈ L, q.1 <+: kw.1 := by
  rw [mem_random_iterate _ (WF_buildTrie L) [] q] at h
  obtain ⟨p, n, hne, hget, hq⟩ := h
  simp only [List.nil_append] at hne hq
  subst hq
  refine ⟨hne, ?_⟩
  have h2 := (get_buildTrie_ne_none L p).mp
    (by rw [hget]; exact fun hc => Option.noConfusion hc)
  rcases h2 with h2 | h2
  · exact absurd h2 hne
  · exact h2

/-- C6 (amended): when the increment stream is grouped into contiguous blocks
sharing a fork prefix — distinct block keys of exactly the fork length,
nonempty blocks, every remainder nonempty and remainders within a block
pairwise non-prefix — the claim holds: each partition is serialized exactly
once when it is closed (the log of serialized partition indices is exactly
`0, 1, …, n-1` in order), and after `finish` the iteration reproduces each
original (key, weight) pair exactly once.  (Without the grouping hypothesis
the claim is false: see the counterexample, where a re-opened fork prefix is
serialized under its first occurrence index, overwriting that partition.) -/
theorem claim_C6_amended (fork : ℕ)
    (blocks : List (List Char × List (List Char × ℕ)))
    (hblocks : blocks ≠ [])
    (hnd : (blocks.map Prod.fst).Nodup)
    (hfork : ∀ bl ∈ blocks, bl.1.length = fork)
    (hitsne : ∀ bl ∈ blocks, bl.2 ≠ [])
    (hrne : ∀ bl ∈ blocks, ∀ it ∈ bl.2, it.1 ≠ [])
    (hpnp : ∀ bl ∈ blocks,
      (bl.2.map Prod.fst).Pairwise (fun p q => ¬ p <+: q ∧ ¬ q <+: p)) :
    (buildDiskTrie fork
        (blocks.flatMap
          (fun bl => blockItems bl.1 bl.2))).finish.serialize_log =
      List.range blocks.length ∧
    ∀ bl ∈ blocks, ∀ it ∈ bl.2,
      (↑(buildDiskTrie fork
          (blocks.flatMap (fun bl => blockItems bl.1 bl.2))).iterate :
        Multiset (List Char × ℕ)).count (bl.1 ++ it.1, it.2) = 1 := by
  obtain ⟨bs, blast, rfl⟩ : ∃ bs blast, blocks = bs ++ [blast] := by
    rcases List.eq_nil_or_concat blocks with h | ⟨L, x, h⟩
    · exact absurd h hblocks
    · exact ⟨L, x, by rw [h, List.concat_eq_append]⟩
  constructor
  · rw [buildDiskTrie_finish fork bs blast hnd hfork hitsne]
  · intro bl hm it hit
    rw [buildDiskTrie_iterate fork bs blast hnd hfork hitsne]
    rw [← Multiset.coe_add, Multiset.count_add]
    have hWzero : (↑((buildTrie ((bs ++ [blast]).flatMap
        (fun bl => bl.2.map (fun it => (bl.1, it.2))))).random_iterate []) :
        Multiset (List Char × ℕ)).count (bl.1 ++ it.1, it.2) = 0 := by
      rw [Multiset.count_eq_zero, Multiset.mem_coe]
      intro hmem
      obtain ⟨hne, kw, hkw, hpre⟩ := mem_iterate_buildTrie_key _ _ hmem
      have hkwlen : kw.1.length = fork := by
        obtain ⟨bl2, hbl2, hkwm⟩ := List.mem_flatMap.mp hkw
        obtain ⟨x, hx, hxe⟩ := List.mem_map.mp hkwm
        rw [← hxe]
        exact hfork bl2 hbl2
      have hlen := hpre.length_le
      have hbl1 : bl.1.length = fork := hfork bl hm
      have hit1 : it.1.length ≠ 0 :=
        fun h0 => (hrne bl hm it hit) (List.length_eq_zero.mp h0)
      rw [List.length_append] at hlen
      omega
    have hPone : (↑((bs ++ [blast]).flatMap partEntries) :
        Multiset (List Char × ℕ)).count (bl.1 ++ it.1, it.2) = 1 :=
      count_parts_one fork bl.1 it.1 it.2 (hfork bl hm)
        (hrne bl hm it hit) (bs ++ [blast]) hfork hnd bl hm rfl
        (by rw [show ((it.1, it.2) : List Char × ℕ) = it from rfl]; exact hit)
        (hpnp bl hm)
    rw [hWzero, hPone]

theorem claim_C6_witness :
    (blocksC6 ≠ [] ∧
      (blocksC6.map Prod.fst).Nodup ∧
      (∀ bl ∈ blocksC6, bl.1.length = 2) ∧
      (∀ bl ∈ blocksC6, bl.2 ≠ []) ∧
      (∀ bl ∈ blocksC6, ∀ it ∈ bl.2, it.1 ≠ []) ∧
      (∀ bl ∈ blocksC6,
        (bl.2.map Prod.fst).Pairwise (fun p q => ¬ p <+: q ∧ ¬ q <+: p))) ∧
    ((buildDiskTrie 2
        (blocksC6.flatMap
          (fun bl => blockItems bl.1 bl.2))).finish.serialize_log =
      List.range blocksC6.length ∧
    ∀ bl ∈ blocksC6, ∀ it ∈ bl.2,
      (↑(buildDiskTrie 2
          (blocksC6.flatMap (fun bl => blockItems bl.1 bl.2))).iterate :
        Multiset (List Char × ℕ)).count (bl.1 ++ it.1, it.2) = 1) :=
  ⟨⟨by decide, by decide, by decide, by decide, by decide, by decide⟩,
    claim_C6_amended 2 blocksC6 (by decide) (by decide) (by decide)
      (by decide) (by decide) (by decide)⟩
